import Mathlib

set_option maxRecDepth 100000

/-!
Verification of the unitire-rs core trie.

This file gives a shallow embedding of the core of the `unitire` crate:
bytes are `Nat` values below 256, byte strings are `List Nat`, the
`BTreeMap` of entries is a sorted association list, machine integers are
`Nat` (widths noted where they matter), fallible code returns `Option`
(the Rust error strings are dropped), and panics are modelled as `none`.
Keccak-256 is implemented concretely (the Rust code calls the external
`tiny_keccak` crate).  Stateful code (`&mut` parameters) is explicit
state passing; loops writing into a buffer become the equivalent pure
expression over the same index arithmetic.
-/

/-! ## Keccak-256 (external collaborator `tiny_keccak`, modelled concretely) -/

def rotl64 (x n : Nat) : Nat :=
  ((x <<< n) ||| (x >>> (64 - n))) % 2 ^ 64

def u64max : Nat := 2 ^ 64 - 1

def keccakRotOffsets : List Nat :=
  [0, 1, 62, 28, 27] ++
  [36, 44, 6, 55, 20] ++
  [3, 10, 43, 25, 39] ++
  [41, 45, 15, 21, 8] ++
  [18, 2, 61, 56, 14]

def keccakRoundConstants : List Nat :=
  [1, 32898, 9223372036854808714, 9223372039002292224] ++
  [32907, 2147483649, 9223372039002292353, 9223372036854808585] ++
  [138, 136, 2147516425, 2147483658] ++
  [2147516555, 9223372036854775947, 9223372036854808713, 9223372036854808579] ++
  [9223372036854808578, 9223372036854775936, 32778, 9223372039002259466] ++
  [9223372039002292353, 9223372036854808704, 2147483649, 9223372039002292232]

def getLane (st : List Nat) (i : Nat) : Nat := st.getD i 0

def keccakRound (st : List Nat) (rc : Nat) : List Nat :=
  let c := (List.range 5).map (fun x =>
    getLane st x ^^^ getLane st (x + 5) ^^^ getLane st (x + 10) ^^^
      getLane st (x + 15) ^^^ getLane st (x + 20))
  let d := (List.range 5).map (fun x =>
    c.getD ((x + 4) % 5) 0 ^^^ rotl64 (c.getD ((x + 1) % 5) 0) 1)
  let a1 := (List.range 25).map (fun i => getLane st i ^^^ d.getD (i % 5) 0)
  let b := (List.range 25).foldl (fun acc i =>
    let x := i % 5
    let y := i / 5
    acc.set (y + 5 * ((2 * x + 3 * y) % 5))
      (rotl64 (a1.getD i 0) (keccakRotOffsets.getD i 0))) (List.replicate 25 0)
  let a2 := (List.range 25).map (fun i =>
    let x := i % 5
    let y := i / 5
    b.getD i 0 ^^^ ((u64max ^^^ b.getD ((x + 1) % 5 + 5 * y) 0) &&&
      b.getD ((x + 2) % 5 + 5 * y) 0))
  a2.set 0 (a2.getD 0 0 ^^^ rc)

def keccakF (st : List Nat) : List Nat :=
  keccakRoundConstants.foldl keccakRound st

def leVal (bs : List Nat) : Nat :=
  bs.foldr (fun b acc => b + 256 * acc) 0

def xorBlockIntoState (st block : List Nat) : List Nat :=
  (List.range 25).map (fun i =>
    if i < 17 then getLane st i ^^^ leVal ((block.drop (8 * i)).take 8)
    else getLane st i)

/-- Absorb the padded message block by block (its length is a multiple of
136, so the block loop is a fold over the block count). -/
def keccakAbsorb (st : List Nat) (padded : List Nat) : List Nat :=
  (List.range (padded.length / 136)).foldl
    (fun acc i => keccakF (xorBlockIntoState acc ((padded.drop (136 * i)).take 136))) st

def keccakPad (msg : List Nat) : List Nat :=
  let padLen := 136 - msg.length % 136
  if padLen = 1 then msg ++ [0x81]
  else msg ++ (0x01 :: List.replicate (padLen - 2) 0) ++ [0x80]

/-- `hash::keccak256`: 32-byte Keccak-256 digest of a byte string. -/
def keccak256 (input : List Nat) : List Nat :=
  let st := keccakAbsorb (List.replicate 25 0) (keccakPad input)
  (List.range 32).map (fun i => (getLane st (i / 8) >>> (8 * (i % 8))) % 256)

/-- `hash::EMPTY_TRIE_RLP`. -/
def EMPTY_TRIE_RLP : List Nat := [0x80]

/-- `hash::empty_trie_hash`. -/
def empty_trie_hash : List Nat := keccak256 EMPTY_TRIE_RLP

/-! ## Byte strings and lexicographic order (`Vec<u8>` with its `Ord`) -/

/-- All elements of the list are bytes. -/
def bytesValid (l : List Nat) : Prop := ∀ b ∈ l, b < 256

instance (l : List Nat) : Decidable (bytesValid l) := by
  unfold bytesValid; infer_instance

/-- Lexicographic strict order on byte strings, the `Ord` used by
`BTreeMap<Vec<u8>, _>`. -/
def lexLt : List Nat → List Nat → Bool
  | [], [] => false
  | [], _ :: _ => true
  | _ :: _, [] => false
  | a :: as2, b :: bs => if a < b then true else if b < a then false else lexLt as2 bs

/-! ## `varint` -/

/-- `varint::size_of`. -/
def varint_size_of (value : Nat) : Nat :=
  if value < 0xfd then 1
  else if value ≤ 0xffff then 3
  else if value ≤ 0xffffffff then 5
  else 9

/-- Little-endian byte rendering of a value (`to_le_bytes` of the given width). -/
def leBytes (k value : Nat) : List Nat :=
  (List.range k).map (fun i => (value >>> (8 * i)) % 256)

/-- `varint::encode` (= `encode_into` on a fresh buffer); the argument is a `u64`. -/
def varint_encode (value : Nat) : List Nat :=
  if value < 0xfd then [value]
  else if value ≤ 0xffff then 0xfd :: leBytes 2 value
  else if value ≤ 0xffffffff then 0xfe :: leBytes 4 value
  else 0xff :: leBytes 8 value

/-- `from_le_bytes` of a `k`-byte slice at `offset`; returns value and new offset. -/
def decodeLe (input : List Nat) (offset k : Nat) : Option (Nat × Nat) :=
  if offset + k > input.length then none
  else some (leVal ((input.drop offset).take k), offset + k)

/-- `varint::decode_from_slice`; the `&mut usize` offset is passed and returned. -/
def varint_decode_from_slice (input : List Nat) (offset : Nat) : Option (Nat × Nat) :=
  if offset ≥ input.length then none
  else
    let first := input.getD offset 0
    if first = 0xfd then decodeLe input (offset + 1) 2
    else if first = 0xfe then decodeLe input (offset + 1) 4
    else if first = 0xff then decodeLe input (offset + 1) 8
    else some (first, offset + 1)

/-! ## `path::shared_path_serializer` -/

/-- `shared_path_serializer::calculate_encoded_length`. -/
def calculate_encoded_length (key_length : Nat) : Nat :=
  key_length / 8 + (if key_length % 8 = 0 then 0 else 1)

/-- The byte packing at most 8 bits MSB-first (one cell of the `encode` loop's
output buffer; the loop's independent `|=` writes are the sum of the disjoint
powers of two below). -/
def spByte (chunk : List Nat) : Nat :=
  ((List.range chunk.length).map
    (fun k => if chunk.getD k 0 = 0 then 0 else 0x80 >>> k)).sum

/-- `shared_path_serializer::encode`: pack bits MSB-first into ⌈n/8⌉ bytes
(cell `j` of the output buffer collects bits `8j..8j+7`). -/
def sp_encode (path : List Nat) : List Nat :=
  (List.range (calculate_encoded_length path.length)).map
    (fun j => spByte ((path.drop (8 * j)).take 8))

/-- `shared_path_serializer::decode`. -/
def sp_decode (encoded : List Nat) (bit_length : Nat) : List Nat :=
  (List.range bit_length).map
    (fun idx => (encoded.getD (idx / 8) 0 >>> (7 - idx % 8)) &&& 1)

/-- `shared_path_serializer::calculate_varint_size`. -/
def calculate_varint_size (bit_length : Nat) : Nat :=
  if (1 ≤ bit_length ∧ bit_length ≤ 32) ∨ (160 ≤ bit_length ∧ bit_length ≤ 382) then 1
  else 1 + varint_size_of bit_length

/-- `shared_path_serializer::serialized_length`. -/
def serialized_length (shared_path_bits : List Nat) : Nat :=
  if shared_path_bits.isEmpty then 0
  else calculate_varint_size shared_path_bits.length +
    calculate_encoded_length shared_path_bits.length

/-- `shared_path_serializer::serialize_into`: the `&mut Vec<u8>` output buffer
is passed in and the extended buffer returned. -/
def serialize_into (shared_path_bits : List Nat) (output : List Nat) : List Nat :=
  if shared_path_bits.isEmpty then output
  else
    let bit_length := shared_path_bits.length
    let header :=
      if 1 ≤ bit_length ∧ bit_length ≤ 32 then [bit_length - 1]
      else if 160 ≤ bit_length ∧ bit_length ≤ 382 then [bit_length - 128]
      else 0xff :: varint_encode bit_length
    output ++ header ++ sp_encode shared_path_bits

/-- `shared_path_serializer::read_path_bit_length`. -/
def read_path_bit_length (input : List Nat) (offset : Nat) : Option (Nat × Nat) :=
  if offset ≥ input.length then none
  else
    let first := input.getD offset 0
    if first ≤ 31 then some (first + 1, offset + 1)
    else if first ≤ 254 then some (first + 128, offset + 1)
    else varint_decode_from_slice input (offset + 1)

/-- `shared_path_serializer::deserialize_from_slice`. -/
def deserialize_from_slice (input : List Nat) (offset : Nat)
    (shared_prefix_present : Bool) : Option (List Nat × Nat) :=
  if !shared_prefix_present then some ([], offset)
  else
    match read_path_bit_length input offset with
    | none => none
    | some (bit_length, off) =>
      let encoded_length := calculate_encoded_length bit_length
      if off + encoded_length > input.length then none
      else some (sp_decode ((input.drop off).take encoded_length) bit_length,
        off + encoded_length)

/-! ## `node_ref`: the node model -/

/-- `node_ref::HASH_SIZE`. -/
def HASH_SIZE : Nat := 32

/-- `node_ref::LONG_VALUE_THRESHOLD`. -/
def LONG_VALUE_THRESHOLD : Nat := 32

/-- `node_ref::MAX_EMBEDDED_NODE_SIZE_IN_BYTES`. -/
def MAX_EMBEDDED_NODE_SIZE_IN_BYTES : Nat := 44

/-- `node_ref::ValueRef` (constructor names shortened to avoid clashes with
the smart constructors below). -/
inductive ValueRef : Type where
  | vempty : ValueRef
  | vinline (value : List Nat) : ValueRef
  | vhashed (hash : List Nat) (length : Option Nat) : ValueRef
deriving DecidableEq

/-- `ValueRef::inline` (the smart constructor: empty bytes collapse to `Empty`). -/
def valueRefInline (value : List Nat) : ValueRef :=
  if value = [] then .vempty else .vinline value

/-- `ValueRef::len`. -/
def ValueRef.lenV : ValueRef → Option Nat
  | .vempty => some 0
  | .vinline value => some value.length
  | .vhashed _ length => length

/-- `ValueRef::has_value`. -/
def ValueRef.has_value : ValueRef → Bool
  | .vempty => false
  | .vinline value => !value.isEmpty
  | .vhashed _ _ => true

/-- `ValueRef::has_long_value`. -/
def ValueRef.has_long_value (v : ValueRef) : Bool :=
  match v.lenV with
  | some length => LONG_VALUE_THRESHOLD < length
  | none => true

/-- `ValueRef::hash`. -/
def ValueRef.hashV : ValueRef → Option (List Nat)
  | .vempty => none
  | .vinline value => some (keccak256 value)
  | .vhashed hash _ => some hash

/-- `ValueRef::inline_bytes`. -/
def ValueRef.inline_bytes : ValueRef → Option (List Nat)
  | .vinline value => some value
  | _ => none

mutual
/-- `node_ref::TrieNode`; `SharedPath` is its validated bit list. -/
inductive TrieNode : Type where
  | mk (shared_path : List Nat) (value : ValueRef)
      (left : NodeReference) (right : NodeReference) : TrieNode
/-- `node_ref::NodeReference`. -/
inductive NodeReference : Type where
  | empty : NodeReference
  | embedded (node : TrieNode) : NodeReference
  | hashed (hash : List Nat) : NodeReference
end

def TrieNode.shared_path : TrieNode → List Nat
  | .mk sp _ _ _ => sp

def TrieNode.value : TrieNode → ValueRef
  | .mk _ v _ _ => v

def TrieNode.left : TrieNode → NodeReference
  | .mk _ _ l _ => l

def TrieNode.right : TrieNode → NodeReference
  | .mk _ _ _ r => r

/-- `NodeReference::is_empty`. -/
def NodeReference.is_empty : NodeReference → Bool
  | .empty => true
  | _ => false

/-- `TrieNode::empty`. -/
def TrieNode.emptyNode : TrieNode :=
  .mk [] .vempty .empty .empty

/-- `TrieNode::is_terminal`. -/
def TrieNode.is_terminal (n : TrieNode) : Bool :=
  n.left.is_empty && n.right.is_empty

/-- `TrieNode::has_value`. -/
def TrieNode.has_value (n : TrieNode) : Bool :=
  n.value.has_value

/-- `TrieNode::value_length`. -/
def TrieNode.value_length (n : TrieNode) : Nat :=
  n.value.lenV.getD 0

/-- `TrieNode::has_long_value`. -/
def TrieNode.has_long_value (n : TrieNode) : Bool :=
  n.value.has_long_value

/-! ## `codec_rskip107` -/

def VERSION_FLAG : Nat := 0x40
def LONG_VALUE_FLAG : Nat := 0x20
def SHARED_PREFIX_FLAG : Nat := 0x10
def LEFT_PRESENT_FLAG : Nat := 0x08
def RIGHT_PRESENT_FLAG : Nat := 0x04
def LEFT_EMBEDDED_FLAG : Nat := 0x02
def RIGHT_EMBEDDED_FLAG : Nat := 0x01

/-- `codec_rskip107::ChildEncoding`. -/
inductive ChildEncoding : Type where
  | empty : ChildEncoding
  | embedded (bytes : List Nat) : ChildEncoding
  | hashed (hash : List Nat) : ChildEncoding
deriving DecidableEq

/-- `ChildEncoding::is_present`. -/
def ChildEncoding.is_present : ChildEncoding → Bool
  | .empty => false
  | _ => true

/-- `ChildEncoding::is_embedded`. -/
def ChildEncoding.is_embedded : ChildEncoding → Bool
  | .embedded _ => true
  | _ => false

/-- `codec_rskip107::read_hash`. -/
def read_hash (payload : List Nat) (offset : Nat) : Option (List Nat × Nat) :=
  if offset + HASH_SIZE > payload.length then none
  else some ((payload.drop offset).take HASH_SIZE, offset + HASH_SIZE)

/-- `codec_rskip107::read_u24`. -/
def read_u24 (payload : List Nat) (offset : Nat) : Option (Nat × Nat) :=
  if offset + 3 > payload.length then none
  else some ((payload.getD offset 0 <<< 16) ||| (payload.getD (offset + 1) 0 <<< 8) |||
    payload.getD (offset + 2) 0, offset + 3)

/-- `codec_rskip107::encode_u24`. -/
def encode_u24 (value : Nat) : Option (List Nat) :=
  if value > 0xffffff then none
  else some [(value >>> 16) &&& 0xff, (value >>> 8) &&& 0xff, value &&& 0xff]

/-- `Rskip107Codec::encode_reference` (appends to the output buffer). -/
def encode_reference (reference : ChildEncoding) (output : List Nat) :
    Option (List Nat) :=
  match reference with
  | .empty => some output
  | .embedded serialized_node =>
    if serialized_node.length > 255 then none
    else some (output ++ serialized_node.length :: serialized_node)
  | .hashed hash => some (output ++ hash)

/-- `Rskip107Codec::encode_node`. -/
def encode_node (node : TrieNode) (left right : ChildEncoding)
    (children_size : Option Nat) : Option (List Nat) :=
  let has_long_value := node.has_long_value
  let left_present := left.is_present
  let right_present := right.is_present
  if (left_present || right_present) && children_size.isNone then none
  else
    let flags := VERSION_FLAG |||
      (if has_long_value then LONG_VALUE_FLAG else 0) |||
      (if !node.shared_path.isEmpty then SHARED_PREFIX_FLAG else 0) |||
      (if left_present then LEFT_PRESENT_FLAG else 0) |||
      (if right_present then RIGHT_PRESENT_FLAG else 0) |||
      (if left.is_embedded then LEFT_EMBEDDED_FLAG else 0) |||
      (if right.is_embedded then RIGHT_EMBEDDED_FLAG else 0)
    let encoded := serialize_into node.shared_path [flags]
    match encode_reference left encoded with
    | none => none
    | some encoded =>
      match encode_reference right encoded with
      | none => none
      | some encoded =>
        let encoded := if left_present || right_present then
            encoded ++ varint_encode (children_size.getD 0)
          else encoded
        if has_long_value then
          match node.value.hashV, node.value.lenV with
          | some hash, some length =>
            match encode_u24 length with
            | none => none
            | some u24 => some (encoded ++ hash ++ u24)
          | _, _ => none
        else
          match node.value.inline_bytes with
          | some inl => some (encoded ++ inl)
          | none => some encoded

mutual
/-- `Rskip107Codec::decode_node`.  The recursion into embedded children is not
structural on the payload, so the embedding carries a fuel argument; any fuel
of at least the payload length suffices (each embedded child payload is
strictly shorter than its parent's). -/
def decode_node (fuel : Nat) (payload : List Nat) : Option TrieNode :=
  match fuel with
  | 0 => none
  | fuel + 1 =>
    if payload.isEmpty then none
    else
      let flags := payload.getD 0 0
      let has_long_value := flags &&& LONG_VALUE_FLAG = LONG_VALUE_FLAG
      let shared_prefix_present := flags &&& SHARED_PREFIX_FLAG = SHARED_PREFIX_FLAG
      let left_present := flags &&& LEFT_PRESENT_FLAG = LEFT_PRESENT_FLAG
      let right_present := flags &&& RIGHT_PRESENT_FLAG = RIGHT_PRESENT_FLAG
      let left_embedded := flags &&& LEFT_EMBEDDED_FLAG = LEFT_EMBEDDED_FLAG
      let right_embedded := flags &&& RIGHT_EMBEDDED_FLAG = RIGHT_EMBEDDED_FLAG
      match deserialize_from_slice payload 1 shared_prefix_present with
      | none => none
      | some (shared_bits, off1) =>
        if shared_bits.any (fun bit => 1 < bit) then none
        else
          match (if left_present then decode_reference fuel payload off1 left_embedded
            else some (.empty, off1)) with
          | none => none
          | some (left, off2) =>
            match (if right_present then decode_reference fuel payload off2 right_embedded
              else some (.empty, off2)) with
            | none => none
            | some (right, off3) =>
              match (if left_present || right_present then
                  (varint_decode_from_slice payload off3).map Prod.snd
                else some off3) with
              | none => none
              | some off4 =>
                let valueAndOff : Option (ValueRef × Nat) :=
                  if has_long_value then
                    match read_hash payload off4 with
                    | none => none
                    | some (hash, off5) =>
                      match read_u24 payload off5 with
                      | none => none
                      | some (value_length, off6) =>
                        some (.vhashed hash (some value_length), off6)
                  else if off4 < payload.length then
                    some (valueRefInline (payload.drop off4), payload.length)
                  else some (.vempty, off4)
                match valueAndOff with
                | none => none
                | some (value, off7) =>
                  if off7 ≠ payload.length then none
                  else some (.mk shared_bits value left right)

/-- `Rskip107Codec::decode_reference`. -/
def decode_reference (fuel : Nat) (payload : List Nat) (offset : Nat)
    (embedded : Bool) : Option (NodeReference × Nat) :=
  if embedded then
    if offset ≥ payload.length then none
    else
      let length := payload.getD offset 0
      let endPos := offset + 1 + length
      if endPos > payload.length then none
      else
        let node_payload := (payload.drop (offset + 1)).take length
        match decode_node fuel node_payload with
        | none => none
        | some embedded_node => some (.embedded embedded_node, endPos)
  else
    match read_hash payload offset with
    | none => none
    | some (hash, off) => some (.hashed hash, off)
end

/-! ## `core_trie`: materializer -/

/-- Length of the longest common prefix of two bit lists. -/
def lcp2 : List Nat → List Nat → Nat
  | a :: as2, b :: bs => if a = b then lcp2 as2 bs + 1 else 0
  | _, _ => 0

/-- `core_trie::longest_common_suffix_length`.  The source scans the key bit
slices `bits[depth..]`; the embedding receives those suffixes directly and
computes the same quantity as the minimum, over all entries, of the common
prefix length with the first entry (capped by the first entry's length, the
source's `max_common_len` bound). -/
def longest_common_suffix_length : List (List Nat) → Nat
  | [] => 0
  | first :: rest => rest.foldl (fun acc s => min acc (lcp2 first s)) first.length

/-- Sum of the key-bit lengths of an entries list (termination measure). -/
def sumKeyLen (entries : List (List Nat × List Nat)) : Nat :=
  (entries.map (fun e => e.1.length)).sum

theorem sumKeyLen_cons (e : List Nat × List Nat) (l : List (List Nat × List Nat)) :
    sumKeyLen (e :: l) = e.1.length + sumKeyLen l := by
  simp [sumKeyLen]

theorem sumKeyLen_filter_tail_le (p : List Nat × List Nat → Bool)
    (rest : List (List Nat × List Nat)) :
    sumKeyLen ((rest.filter p).map (fun e => (e.1.tail, e.2))) ≤ sumKeyLen rest := by
  induction rest with
  | nil => simp [sumKeyLen]
  | cons e l ih =>
    by_cases hp : p e
    · simp only [List.filter_cons, hp, if_pos, List.map_cons, sumKeyLen_cons]
      have := e.1.length_tail
      omega
    · simp only [List.filter_cons, hp]
      simp only [Bool.false_eq_true, if_false, sumKeyLen_cons]
      omega

theorem sumKeyLen_filter_tail_lt (p : List Nat × List Nat → Bool)
    (hp : ∀ e, p e = true → e.1 ≠ [])
    (rest : List (List Nat × List Nat))
    (hne0 : (rest.filter p).map (fun e => (e.1.tail, e.2)) ≠ []) :
    sumKeyLen ((rest.filter p).map (fun e => (e.1.tail, e.2))) < sumKeyLen rest := by
  have hne : rest.filter p ≠ [] := by
    intro hf
    exact hne0 (by simp [hf])
  clear hne0
  induction rest with
  | nil => simp at hne
  | cons e l ih =>
    by_cases hpe : p e
    · simp only [List.filter_cons, hpe, if_pos, List.map_cons, sumKeyLen_cons]
      have h1 : e.1 ≠ [] := hp e hpe
      have h2 : e.1.length ≠ 0 := by simpa using h1
      have h3 := sumKeyLen_filter_tail_le p l
      have := e.1.length_tail
      omega
    · simp only [List.filter_cons, hpe] at hne ⊢
      simp only [Bool.false_eq_true, if_false, sumKeyLen_cons] at hne ⊢
      have := ih hne
      omega

theorem sumKeyLen_map_drop_le (k : Nat) (entries : List (List Nat × List Nat)) :
    sumKeyLen (entries.map (fun e => (e.1.drop k, e.2))) ≤ sumKeyLen entries := by
  induction entries with
  | nil => simp [sumKeyLen]
  | cons e l ih =>
    simp only [List.map_cons, sumKeyLen_cons]
    have := e.1.length_drop k
    omega

/-- `core_trie::build_node`.  The source recurses on `(full bit lists, depth)`
and panics on malformed input; the embedding passes the bit suffixes
`bits[depth..]` directly (the shared prefix is `take`n/`drop`ped from the
front and each recursive call receives each entry's suffix after the branch
bit) and carries a fuel argument so that the recursion is structural; any
fuel exceeding the total bit count suffices and `build_root_node` supplies
one. -/
def build_node (fuel : Nat) (entries : List (List Nat × List Nat)) : TrieNode :=
  match fuel with
  | 0 => TrieNode.emptyNode
  | fuel + 1 =>
    let shared_len := longest_common_suffix_length (entries.map Prod.fst)
    let shared_path_bits :=
      match entries.head? with
      | some e => e.1.take shared_len
      | none => []
    let rest := entries.map (fun e => (e.1.drop shared_len, e.2))
    let value := rest.foldl (fun acc e => if e.1.isEmpty then some e.2 else acc) none
    let left_entries :=
      (rest.filter (fun e => !e.1.isEmpty && e.1.headD 1 == 0)).map (fun e => (e.1.tail, e.2))
    let right_entries :=
      (rest.filter (fun e => !e.1.isEmpty && !(e.1.headD 1 == 0))).map (fun e => (e.1.tail, e.2))
    let left_reference :=
      if left_entries = [] then NodeReference.empty
      else NodeReference.embedded (build_node fuel left_entries)
    let right_reference :=
      if right_entries = [] then NodeReference.empty
      else NodeReference.embedded (build_node fuel right_entries)
    TrieNode.mk shared_path_bits (valueRefInline (value.getD [])) left_reference right_reference

/-- `core_trie::build_root_node`. -/
def build_root_node (entries : List (List Nat × List Nat)) : Option TrieNode :=
  if entries.isEmpty then none
  else
    let bit_entries := entries.map (fun e => (sp_decode e.1 (e.1.length * 8), e.2))
    some (build_node (sumKeyLen bit_entries + 1) bit_entries)

/-! ## `core_trie`: node metadata (hashing) -/

/-- The `embeddable` test `node.is_terminal() && serialized.len() <= 44`
shared by `compute_node_metadata` and `persist_node_recursive`. -/
def embeddableB (node : TrieNode) (serialized : List Nat) : Bool :=
  node.is_terminal && decide (serialized.length ≤ MAX_EMBEDDED_NODE_SIZE_IN_BYTES)

/-- `core_trie::NodeMetadata`. -/
structure NodeMetadata where
  hash : List Nat
  serialized : List Nat
  reference_size : Nat
  embeddable : Bool
deriving DecidableEq

mutual
/-- `core_trie::compute_node_metadata`. -/
def compute_node_metadata (node : TrieNode) : Option NodeMetadata :=
  match node with
  | .mk sp v l r =>
    match compute_child_encoding l with
    | none => none
    | some (left_encoding, left_size) =>
      match compute_child_encoding r with
      | none => none
      | some (right_encoding, right_size) =>
        let node' := TrieNode.mk sp v l r
        let children_size :=
          if node'.is_terminal then none else some (left_size + right_size)
        match encode_node node' left_encoding right_encoding children_size with
        | none => none
        | some serialized =>
          let hash := keccak256 serialized
          let external_value_size :=
            if node'.has_long_value then node'.value_length else 0
          let reference_size :=
            children_size.getD 0 + external_value_size + serialized.length
          some { hash := hash
                 serialized := serialized
                 reference_size := reference_size
                 embeddable := embeddableB node' serialized }

/-- `core_trie::compute_child_encoding`. -/
def compute_child_encoding (reference : NodeReference) : Option (ChildEncoding × Nat) :=
  match reference with
  | .empty => some (.empty, 0)
  | .embedded child =>
    match compute_node_metadata child with
    | none => none
    | some metadata =>
      if metadata.embeddable then some (.embedded metadata.serialized, metadata.reference_size)
      else some (.hashed metadata.hash, metadata.reference_size)
  | .hashed _ => none
end

/-! ## The `RawStoreAdapter` collaborator (in-memory map semantics) -/

/-- A raw store: two keyed namespaces of byte blobs.  Writes prepend; lookup
takes the first match, i.e. the most recent write wins, matching `HashMap`
insertion. -/
structure Store where
  nodes : List (List Nat × List Nat)
  values : List (List Nat × List Nat)
deriving DecidableEq

def store_lookup : List (List Nat × List Nat) → List Nat → Option (List Nat)
  | [], _ => none
  | (k, v) :: rest, h => if k = h then some v else store_lookup rest h

def Store.load_raw_node (store : Store) (hash : List Nat) : Option (List Nat) :=
  store_lookup store.nodes hash

def Store.load_raw_value (store : Store) (hash : List Nat) : Option (List Nat) :=
  store_lookup store.values hash

def Store.save_raw_node (store : Store) (hash serialized_node : List Nat) : Store :=
  { store with nodes := (hash, serialized_node) :: store.nodes }

def Store.save_raw_value (store : Store) (hash value : List Nat) : Store :=
  { store with values := (hash, value) :: store.values }

def Store.emptyStore : Store := ⟨[], []⟩

/-- `HashSet<[u8; 32]>` as a list without duplicates; `insert` returns whether
the element was newly inserted, as in Rust. -/
def hset_insert (h : List Nat) (s : List (List Nat)) : Bool × List (List Nat) :=
  if h ∈ s then (false, s) else (true, h :: s)

/-! ## `core_trie`: persistence walker -/

/-- `core_trie::SaveStats`. -/
structure SaveStats where
  nodes_visited : Nat
  nodes_written : Nat
  values_written : Nat
deriving DecidableEq

def SaveStats.zero : SaveStats := ⟨0, 0, 0⟩

mutual
/-- `core_trie::persist_node_recursive`.  The `&mut` store and hash sets are
threaded through and returned. -/
def persist_node_recursive (node : TrieNode) (store : Store)
    (sn sv : List (List Nat)) (is_root : Bool) :
    Option (NodeMetadata × SaveStats × Store × List (List Nat) × List (List Nat)) :=
  match node with
  | .mk sp v l r =>
    match persist_child_reference l store sn sv with
    | none => none
    | some (left_encoding, left_size, left_stats, store1, sn1, sv1) =>
      match persist_child_reference r store1 sn1 sv1 with
      | none => none
      | some (right_encoding, right_size, right_stats, store2, sn2, sv2) =>
        let node' := TrieNode.mk sp v l r
        let children_size :=
          if node'.is_terminal then none else some (left_size + right_size)
        match encode_node node' left_encoding right_encoding children_size with
        | none => none
        | some serialized =>
          let hash := keccak256 serialized
          let stats0 : SaveStats :=
            ⟨1 + left_stats.nodes_visited + right_stats.nodes_visited,
             left_stats.nodes_written + right_stats.nodes_written,
             left_stats.values_written + right_stats.values_written⟩
          let valueStep : SaveStats × Store × List (List Nat) :=
            match node'.value.inline_bytes with
            | some inline_value =>
              if LONG_VALUE_THRESHOLD < inline_value.length then
                let value_hash := keccak256 inline_value
                match hset_insert value_hash sv2 with
                | (true, sv3) =>
                  (⟨stats0.nodes_visited, stats0.nodes_written, stats0.values_written + 1⟩,
                   store2.save_raw_value value_hash inline_value, sv3)
                | (false, sv3) => (stats0, store2, sv3)
              else (stats0, store2, sv2)
            | none => (stats0, store2, sv2)
          match valueStep with
          | (stats1, store3, sv3) =>
            let embeddable := embeddableB node' serialized
            let nodeStep : SaveStats × Store × List (List Nat) :=
              if is_root || !embeddable then
                let inserted := hset_insert hash sn2
                let should_write := if is_root then true else inserted.1
                let sn3 := inserted.2
                let withWrite : SaveStats × Store :=
                  if should_write then
                    (⟨stats1.nodes_visited, stats1.nodes_written + 1, stats1.values_written⟩,
                     store3.save_raw_node hash serialized)
                  else (stats1, store3)
                let sn4 := if is_root then (hset_insert hash sn3).2 else sn3
                (withWrite.1, withWrite.2, sn4)
              else (stats1, store3, sn2)
            match nodeStep with
            | (stats2, store4, sn4) =>
              let external_value_size :=
                if node'.has_long_value then node'.value_length else 0
              let reference_size :=
                children_size.getD 0 + external_value_size + serialized.length
              some ({ hash := hash
                      serialized := serialized
                      reference_size := reference_size
                      embeddable := embeddable },
                stats2, store4, sn4, sv3)

/-- `core_trie::persist_child_reference`. -/
def persist_child_reference (reference : NodeReference) (store : Store)
    (sn sv : List (List Nat)) :
    Option (ChildEncoding × Nat × SaveStats × Store × List (List Nat) × List (List Nat)) :=
  match reference with
  | .empty => some (.empty, 0, SaveStats.zero, store, sn, sv)
  | .embedded child =>
    match persist_node_recursive child store sn sv false with
    | none => none
    | some (child_metadata, child_stats, store1, sn1, sv1) =>
      if child_metadata.embeddable then
        some (.embedded child_metadata.serialized, child_metadata.reference_size,
          child_stats, store1, sn1, sv1)
      else
        some (.hashed child_metadata.hash, child_metadata.reference_size,
          child_stats, store1, sn1, sv1)
  | .hashed hash =>
    some (.hashed hash, 0, SaveStats.zero, store, (hset_insert hash sn).2, sv)
end

/-! ## `core_trie`: the `Unitrie` engine -/

/-- `core_trie::MaterializedTrie` (root node plus root hash). -/
structure MaterializedTrie where
  root_node : Option TrieNode
  root_hash : List Nat

/-- `core_trie::Unitrie`.  The `BTreeMap` of entries is a sorted association
list (sortedness by `lexLt` is carried as a hypothesis where needed). -/
structure Unitrie where
  entries : List (List Nat × List Nat)
  materialized : Option MaterializedTrie
  persisted_node_hashes : List (List Nat)
  persisted_value_hashes : List (List Nat)

/-- `Unitrie::new`. -/
def Unitrie.new : Unitrie := ⟨[], none, [], []⟩

/-- `BTreeMap::get`. -/
def mapGet (entries : List (List Nat × List Nat)) (key : List Nat) : Option (List Nat) :=
  match entries with
  | [] => none
  | (k, v) :: rest => if k = key then some v else mapGet rest key

/-- `Unitrie::get`. -/
def Unitrie.get (t : Unitrie) (key : List Nat) : Option (List Nat) :=
  mapGet t.entries key

/-- `BTreeMap::insert` on the sorted association list. -/
def mapInsert (key value : List Nat) :
    List (List Nat × List Nat) → List (List Nat × List Nat)
  | [] => [(key, value)]
  | (k, v) :: rest =>
    if lexLt key k then (key, value) :: (k, v) :: rest
    else if lexLt k key then (k, v) :: mapInsert key value rest
    else (key, value) :: rest

/-- `BTreeMap::remove` on the sorted association list. -/
def mapRemove (key : List Nat) (entries : List (List Nat × List Nat)) :
    List (List Nat × List Nat) :=
  entries.filter (fun e => e.1 ≠ key)

/-- `Unitrie::put`. -/
def Unitrie.put (t : Unitrie) (key value : List Nat) : Unitrie :=
  if value.isEmpty then
    { t with entries := mapRemove key t.entries
             materialized := none }
  else
    { t with entries := mapInsert key value t.entries
             materialized := none }

/-- `Unitrie::delete`. -/
def Unitrie.delete (t : Unitrie) (key : List Nat) : Unitrie :=
  { t with entries := mapRemove key t.entries
           materialized := none }

/-- `core_trie::prefix_upper_bound`: shortest byte string strictly above the
prefix, scanning from the last byte for one below `0xff`. -/
def prefix_upper_bound_rev : List Nat → Option (List Nat)
  | [] => none
  | b :: rest => if b ≠ 255 then some ((b + 1) :: rest).reverse
    else prefix_upper_bound_rev rest

def prefix_upper_bound (pre : List Nat) : Option (List Nat) :=
  if pre.isEmpty then none
  else prefix_upper_bound_rev pre.reverse

/-- `Unitrie::delete_recursive`.  `split_off` on the sorted map is a filter by
the lexicographic order; appends restore order because the pieces are
consecutive windows of the sorted list. -/
def Unitrie.delete_recursive (t : Unitrie) (pre : List Nat) : Unitrie :=
  if t.entries.isEmpty then t
  else if pre.isEmpty then
    { t with entries := []
             materialized := none }
  else
    let selfPart := t.entries.filter (fun e => lexLt e.1 pre)
    let tail := t.entries.filter (fun e => !lexLt e.1 pre)
    match prefix_upper_bound pre with
    | some upper_bound =>
      let window := tail.filter (fun e => lexLt e.1 upper_bound)
      let suffix := tail.filter (fun e => !lexLt e.1 upper_bound)
      if window.isEmpty then { t with entries := (selfPart ++ suffix) ++ window }
      else { t with entries := selfPart ++ suffix
                    materialized := none }
    | none =>
      if tail.isEmpty then { t with entries := selfPart ++ tail }
      else { t with entries := selfPart
                    materialized := none }

/-- `Unitrie::get_value_length`. -/
def Unitrie.get_value_length (t : Unitrie) (key : List Nat) : Option Nat :=
  (mapGet t.entries key).map List.length

/-- `Unitrie::get_value_hash`. -/
def Unitrie.get_value_hash (t : Unitrie) (key : List Nat) : Option (List Nat) :=
  (mapGet t.entries key).map keccak256

/-- `Unitrie::key_count`. -/
def Unitrie.key_count (t : Unitrie) : Nat := t.entries.length

/-- `Unitrie::materialize`; `none` models the `.expect` panic on an
unencodable tree. -/
def Unitrie.materialize (t : Unitrie) : Option (Unitrie × MaterializedTrie) :=
  match t.materialized with
  | some m => some (t, m)
  | none =>
    match build_root_node t.entries with
    | none =>
      let m : MaterializedTrie := ⟨none, empty_trie_hash⟩
      some ({ t with materialized := some m }, m)
    | some root_node =>
      match compute_node_metadata root_node with
      | none => none
      | some metadata =>
        let m : MaterializedTrie := ⟨some root_node, metadata.hash⟩
        some ({ t with materialized := some m }, m)

/-- `Unitrie::root_hash`. -/
def Unitrie.root_hash (t : Unitrie) : Option (Unitrie × List Nat) :=
  (t.materialize).map (fun tm => (tm.1, tm.2.root_hash))

/-- `Unitrie::save_to_store_with_stats`. -/
def Unitrie.save_to_store_with_stats (t : Unitrie) (store : Store) :
    Option (Unitrie × Store × SaveStats) :=
  if t.entries.isEmpty then
    match encode_node TrieNode.emptyNode .empty .empty none with
    | none => none
    | some empty_node_serialized =>
      let empty_hash := empty_trie_hash
      let store' := store.save_raw_node empty_hash empty_node_serialized
      some ({ t with persisted_node_hashes := (hset_insert empty_hash t.persisted_node_hashes).2
                     materialized := some ⟨none, empty_hash⟩ },
        store', ⟨1, 1, 0⟩)
  else
    match t.materialize with
    | none => none
    | some (t1, m) =>
      match m.root_node with
      | none => none
      | some root_node =>
        match persist_node_recursive root_node store t1.persisted_node_hashes
            t1.persisted_value_hashes true with
        | none => none
        | some (root_metadata, save_stats, store', sn', sv') =>
          some ({ t1 with materialized := some ⟨some root_node, root_metadata.hash⟩
                          persisted_node_hashes := sn'
                          persisted_value_hashes := sv' },
            store', save_stats)

/-! ## `core_trie`: rehydration -/

/-- `codec_orchid::OrchidCodec::is_orchid_message` (first byte = arity 2). -/
def is_orchid_message (payload : List Nat) : Bool :=
  !payload.isEmpty && payload.getD 0 0 == 2

/-- `core_trie::decode_persisted_node`.  Only stores produced by the current
codec are in scope here: the claims under verification save exclusively
via `Rskip107Codec`, and an RSKIP107 payload never has first byte 2 (its
version bits force `0x40 ≤ flags < 0x80`), so the orchid branch of the
dispatch is not taken on such stores; it is modelled as a failure. -/
def decode_persisted_node (payload : List Nat) : Option TrieNode :=
  if is_orchid_message payload then none
  else decode_node (payload.length + 1) payload

/-- `core_trie::resolve_node_value`. -/
def resolve_node_value (value : ValueRef) (store : Store) : Option (List Nat) :=
  match value with
  | .vempty => some []
  | .vinline bytes => some bytes
  | .vhashed hash _ => store.load_raw_value hash

/-- `core_trie::load_node_by_hash`; the cache is an association list. -/
def load_node_by_hash (hash : List Nat) (store : Store)
    (node_cache : List (List Nat × TrieNode)) :
    Option (TrieNode × List (List Nat × TrieNode)) :=
  match node_cache.find? (fun e => e.1 = hash) with
  | some e => some (e.2, node_cache)
  | none =>
    match store.load_raw_node hash with
    | none => none
    | some payload =>
      match decode_persisted_node payload with
      | none => none
      | some node => some (node, (hash, node) :: node_cache)

/-- State threaded by the rehydration walk: node cache, entries map under
construction, and the two persisted-hash seed sets. -/
structure CollectState where
  node_cache : List (List Nat × TrieNode)
  entries : List (List Nat × List Nat)
  persisted_node_hashes : List (List Nat)
  persisted_value_hashes : List (List Nat)

mutual
/-- `core_trie::collect_entries_from_node`.  The walk recurses through the
hash-linked store graph, which is not structural; the embedding carries a
fuel argument (any fuel at least the height of the walked graph suffices). -/
def collect_entries_from_node (fuel : Nat) (node : TrieNode) (prefix_bits : List Nat)
    (store : Store) (st : CollectState) : Option CollectState :=
  match fuel with
  | 0 => none
  | fuel + 1 =>
    let full_bits := prefix_bits ++ node.shared_path
    let afterValue : Option CollectState :=
      if node.value.has_value then
        let st1 :=
          match node.value with
          | .vhashed hash _ =>
            { st with persisted_value_hashes := (hset_insert hash st.persisted_value_hashes).2 }
          | _ => st
        match resolve_node_value node.value store with
        | none => none
        | some value =>
          some { st1 with entries := mapInsert (sp_encode full_bits) value st1.entries }
      else some st
    match afterValue with
    | none => none
    | some st2 =>
      match collect_child_entries fuel node.left 0 full_bits store st2 with
      | none => none
      | some st3 => collect_child_entries fuel node.right 1 full_bits store st3

/-- `core_trie::collect_child_entries`. -/
def collect_child_entries (fuel : Nat) (reference : NodeReference) (implicit_bit : Nat)
    (parent_bits : List Nat) (store : Store) (st : CollectState) : Option CollectState :=
  match fuel with
  | 0 => none
  | fuel + 1 =>
    match reference with
    | .empty => some st
    | .embedded node =>
      collect_entries_from_node fuel node (parent_bits ++ [implicit_bit]) store st
    | .hashed hash =>
      let st1 := { st with
        persisted_node_hashes := (hset_insert hash st.persisted_node_hashes).2 }
      match load_node_by_hash hash store st1.node_cache with
      | none => none
      | some (child, cache') =>
        collect_entries_from_node fuel child (parent_bits ++ [implicit_bit]) store
          { st1 with node_cache := cache' }
end

/-- `Unitrie::from_persisted_root`, with the walk's fuel made explicit. -/
def from_persisted_root (fuel : Nat) (root_hash : List Nat) (store : Store) :
    Option Unitrie :=
  if root_hash.length ≠ HASH_SIZE then none
  else if root_hash = empty_trie_hash then some Unitrie.new
  else
    match store.load_raw_node root_hash with
    | none => none
    | some root_payload =>
      match decode_persisted_node root_payload with
      | none => none
      | some root_node =>
        let st0 : CollectState := ⟨[], [], [root_hash], []⟩
        match collect_entries_from_node fuel root_node [] store st0 with
        | none => none
        | some st =>
          some { entries := st.entries
                 materialized := none
                 persisted_node_hashes := st.persisted_node_hashes
                 persisted_value_hashes := st.persisted_value_hashes }

/-! ## Claims -/

/-- C5: a fresh trie's root hash is Keccak-256 of the single byte `0x80`, and
saving an empty trie performs exactly one store write — the canonical
empty-node encoding `0x40` saved as a node blob under that constant hash —
returning statistics `nodes_visited = 1`, `nodes_written = 1`,
`values_written = 0`. -/
theorem empty_trie_root_hash_and_save (store : Store) :
    (Unitrie.new.root_hash).map Prod.snd = some (keccak256 [0x80]) ∧
    encode_node TrieNode.emptyNode .empty .empty none = some [0x40] ∧
    ∃ t', Unitrie.new.save_to_store_with_stats store =
      some (t', ⟨(keccak256 [0x80], [0x40]) :: store.nodes, store.values⟩, ⟨1, 1, 0⟩) :=
  ⟨rfl, rfl, ⟨_, rfl⟩⟩

mutual
/-- Trees produced by the materializer contain no `Hashed` child references. -/
def noHashedNode : TrieNode → Bool
  | .mk _ _ l r => noHashedRef l && noHashedRef r
def noHashedRef : NodeReference → Bool
  | .empty => true
  | .embedded n => noHashedNode n
  | .hashed _ => false
end

mutual
theorem persist_node_md (node : TrieNode) (store : Store) (sn sv : List (List Nat))
    (is_root : Bool) (h : noHashedNode node = true) :
    (persist_node_recursive node store sn sv is_root).map (fun r => r.1) =
      compute_node_metadata node := by
  match node with
  | .mk sp v l r =>
    simp only [noHashedNode, Bool.and_eq_true] at h
    rw [persist_node_recursive, compute_node_metadata]
    have hl := persist_child_enc l store sn sv h.1
    cases hpl : persist_child_reference l store sn sv with
    | none =>
      rw [hpl] at hl
      simp only [Option.map_none'] at hl
      rw [← hl]
      rfl
    | some ql =>
      rw [hpl] at hl
      simp only [Option.map_some'] at hl
      rw [← hl]
      obtain ⟨le, ls, lstats, lstore, lsn, lsv⟩ := ql
      dsimp only
      have hr := persist_child_enc r lstore lsn lsv h.2
      cases hpr : persist_child_reference r lstore lsn lsv with
      | none =>
        rw [hpr] at hr
        simp only [Option.map_none'] at hr
        rw [← hr]
        rfl
      | some qr =>
        rw [hpr] at hr
        simp only [Option.map_some'] at hr
        rw [← hr]
        obtain ⟨re, rs, rstats, rstore, rsn, rsv⟩ := qr
        dsimp only
        cases henc : encode_node (TrieNode.mk sp v l r) le re
            (if (TrieNode.mk sp v l r).is_terminal then none else some (ls + rs)) with
        | none => rfl
        | some serialized => rfl

theorem persist_child_enc (reference : NodeReference) (store : Store)
    (sn sv : List (List Nat)) (h : noHashedRef reference = true) :
    (persist_child_reference reference store sn sv).map (fun r => (r.1, r.2.1)) =
      compute_child_encoding reference := by
  match reference with
  | .empty => rfl
  | .embedded child =>
    rw [persist_child_reference, compute_child_encoding]
    have hc := persist_node_md child store sn sv false (by simpa [noHashedRef] using h)
    cases hpc : persist_node_recursive child store sn sv false with
    | none =>
      rw [hpc] at hc
      simp only [Option.map_none'] at hc
      rw [← hc]
      rfl
    | some qc =>
      rw [hpc] at hc
      simp only [Option.map_some'] at hc
      rw [← hc]
      obtain ⟨md, stats, store1, sn1, sv1⟩ := qc
      dsimp only
      by_cases hemb : md.embeddable <;> simp [hemb]
  | .hashed hh => simp [noHashedRef] at h
end

theorem compute_md_spec (node : TrieNode) (md : NodeMetadata)
    (h : compute_node_metadata node = some md) :
    ∃ le ls re rs, compute_child_encoding node.left = some (le, ls) ∧
      compute_child_encoding node.right = some (re, rs) ∧
      encode_node node le re (if node.is_terminal then none else some (ls + rs)) =
        some md.serialized ∧
      md.hash = keccak256 md.serialized ∧
      md.reference_size = (if node.is_terminal then 0 else ls + rs) +
        (if node.has_long_value then node.value_length else 0) + md.serialized.length ∧
      md.embeddable = embeddableB node md.serialized := by
  match node with
  | .mk sp v l r =>
    rw [compute_node_metadata] at h
    cases hl : compute_child_encoding l with
    | none => rw [hl] at h; exact absurd h (by simp)
    | some pl =>
      rw [hl] at h
      obtain ⟨le, ls⟩ := pl
      dsimp only at h
      cases hr : compute_child_encoding r with
      | none => rw [hr] at h; exact absurd h (by simp)
      | some pr =>
        rw [hr] at h
        obtain ⟨re, rs⟩ := pr
        dsimp only at h
        cases henc : encode_node (TrieNode.mk sp v l r) le re
            (if (TrieNode.mk sp v l r).is_terminal then none else some (ls + rs)) with
        | none => rw [henc] at h; exact absurd h (by simp)
        | some serialized =>
          rw [henc] at h
          dsimp only at h
          refine ⟨le, ls, re, rs, hl, hr, ?_, ?_, ?_, ?_⟩ <;>
            cases h <;> simp [henc, Option.getD]
          · cases hterm : (TrieNode.mk sp v l r).is_terminal <;> simp [hterm]

theorem keccak256_length (input : List Nat) : (keccak256 input).length = 32 := by
  simp [keccak256]

/-- C7: during persistence and during hash computation, a non-empty child is
recorded as `Embedded` (full serialized bytes inline) iff it is terminal and
its serialized form is at most 44 bytes; otherwise it is recorded as a
`Hashed` 32-byte reference, and a non-terminal child is never embedded. -/
theorem child_embedding_rule (child : TrieNode) (md : NodeMetadata) (store : Store)
    (sn sv : List (List Nat)) (hnh : noHashedNode child = true)
    (hmd : compute_node_metadata child = some md) :
    (compute_child_encoding (.embedded child) =
      some ((if child.is_terminal &&
          decide (md.serialized.length ≤ MAX_EMBEDDED_NODE_SIZE_IN_BYTES)
        then ChildEncoding.embedded md.serialized else ChildEncoding.hashed md.hash),
        md.reference_size)) ∧
    ((persist_child_reference (.embedded child) store sn sv).map (fun x => x.1) =
      some (if child.is_terminal &&
          decide (md.serialized.length ≤ MAX_EMBEDDED_NODE_SIZE_IN_BYTES)
        then ChildEncoding.embedded md.serialized else ChildEncoding.hashed md.hash)) ∧
    md.hash.length = HASH_SIZE ∧
    (child.is_terminal = false →
      compute_child_encoding (.embedded child) =
        some (ChildEncoding.hashed md.hash, md.reference_size)) := by
  obtain ⟨le, ls, re, rs, hl, hr, henc, hhash, hsize, hembed⟩ := compute_md_spec child md hmd
  have hkey : compute_child_encoding (.embedded child) =
      some ((if child.is_terminal &&
          decide (md.serialized.length ≤ MAX_EMBEDDED_NODE_SIZE_IN_BYTES)
        then ChildEncoding.embedded md.serialized else ChildEncoding.hashed md.hash),
        md.reference_size) := by
    rw [compute_child_encoding, hmd]
    dsimp only
    rw [hembed]
    unfold embeddableB
    cases hb : child.is_terminal && decide (md.serialized.length ≤ MAX_EMBEDDED_NODE_SIZE_IN_BYTES) <;>
      simp
  refine ⟨hkey, ?_, ?_, ?_⟩
  · have hp := persist_child_enc (.embedded child) store sn sv (by simpa [noHashedRef] using hnh)
    rw [hkey] at hp
    cases hpc : persist_child_reference (.embedded child) store sn sv with
    | none => rw [hpc] at hp; simp at hp
    | some q =>
      rw [hpc] at hp
      simp only [Option.map_some'] at hp ⊢
      obtain ⟨q1, q2⟩ := Prod.mk.injEq .. ▸ (Option.some.injEq .. ▸ hp :
        (q.1, q.2.1) = _)
      simp [q1]
  · rw [hhash]; exact keccak256_length _
  · intro hterm
    rw [hkey, hterm]
    simp

/-- Concrete terminal node used by witnesses. -/
def childW : TrieNode := TrieNode.mk [] (.vinline [5]) .empty .empty

/-- Metadata of `childW`: serialized form `[0x40, 5]`. -/
def mdW : NodeMetadata := ⟨keccak256 [64, 5], [64, 5], 2, true⟩

theorem child_embedding_rule_witness :
    noHashedNode childW = true ∧
    compute_node_metadata childW = some mdW ∧
    compute_child_encoding (.embedded childW) = some (.embedded [64, 5], 2) := by
  refine ⟨rfl, rfl, ?_⟩
  have h := (child_embedding_rule childW mdW Store.emptyStore [] [] rfl rfl).1
  simpa [childW, mdW, TrieNode.is_terminal, NodeReference.is_empty,
    MAX_EMBEDDED_NODE_SIZE_IN_BYTES] using h

theorem encode_short_value (sp : List Nat) (l r : NodeReference)
    (le re : ChildEncoding) (cs : Option Nat) (v : List Nat) (hv : v.length ≤ 32) :
    encode_node (.mk sp (.vinline v) l r) le re cs =
      (encode_node (.mk sp .vempty l r) le re cs).map (fun s => s ++ v) := by
  rw [encode_node, encode_node]
  have h1 : (TrieNode.mk sp (.vinline v) l r).has_long_value = false := by
    simp [TrieNode.has_long_value, TrieNode.value, ValueRef.has_long_value, ValueRef.lenV,
      LONG_VALUE_THRESHOLD]
    omega
  have h2 : (TrieNode.mk sp ValueRef.vempty l r).has_long_value = false := by
    simp [TrieNode.has_long_value, TrieNode.value, ValueRef.has_long_value, ValueRef.lenV,
      LONG_VALUE_THRESHOLD]
  rw [h1, h2]
  by_cases hguard : (le.is_present || re.is_present) && cs.isNone
  · rw [if_pos hguard, if_pos hguard]; rfl
  · rw [if_neg hguard, if_neg hguard]
    simp only [Bool.false_eq_true, if_false]
    have hsp : (TrieNode.mk sp (.vinline v) l r).shared_path =
        (TrieNode.mk sp ValueRef.vempty l r).shared_path := rfl
    rw [hsp]
    split
    · rfl
    · split
      · rfl
      · simp [TrieNode.value, ValueRef.inline_bytes]

/-- C6: a value of exactly 32 bytes is serialized inline in the node's
RSKIP107 encoding (its encoded prefix does not depend on the value bytes),
while a value of 33 bytes or more is long: the encoding instead carries the
value's 32-byte Keccak-256 hash followed by its 3-byte big-endian length,
and persisting such a (terminal) node writes the value bytes as a separate
value blob keyed by that Keccak-256 hash. -/
theorem long_value_boundary (sp : List Nat) (l r : NodeReference)
    (le re : ChildEncoding) (cs : Option Nat) (v : List Nat) :
    ((TrieNode.mk sp (.vinline v) l r).has_long_value = decide (32 < v.length)) ∧
    (v.length = 32 → ∀ b, encode_node (.mk sp (.vinline v) l r) le re cs = some b →
      ∃ stem, b = stem ++ v ∧ ∀ v', v'.length = 32 →
        encode_node (.mk sp (.vinline v') l r) le re cs = some (stem ++ v')) ∧
    (33 ≤ v.length → v.length ≤ 0xffffff →
      ∀ b, encode_node (.mk sp (.vinline v) l r) le re cs = some b →
      ∃ stem, b = stem ++ keccak256 v ++
        [(v.length >>> 16) &&& 0xff, (v.length >>> 8) &&& 0xff, v.length &&& 0xff]) ∧
    (32 < v.length → ∀ store sn sv is_root, keccak256 v ∉ sv →
      ∀ md stats store' sn' sv',
        persist_node_recursive (.mk sp (.vinline v) .empty .empty) store sn sv is_root =
          some (md, stats, store', sn', sv') →
        store'.values = (keccak256 v, v) :: store.values ∧
          stats.values_written = 1 ∧ sv' = keccak256 v :: sv) := by
  have hlong : (TrieNode.mk sp (.vinline v) l r).has_long_value = decide (32 < v.length) := by
    simp [TrieNode.has_long_value, TrieNode.value, ValueRef.has_long_value, ValueRef.lenV,
      LONG_VALUE_THRESHOLD]
  refine ⟨hlong, ?_, ?_, ?_⟩
  · intro h32 b henc
    rw [encode_short_value sp l r le re cs v (by omega)] at henc
    cases hes : encode_node (.mk sp .vempty l r) le re cs with
    | none => rw [hes] at henc; cases henc
    | some stem =>
      rw [hes] at henc
      simp only [Option.map_some', Option.some.injEq] at henc
      refine ⟨stem, henc.symm, ?_⟩
      intro v' h32'
      rw [encode_short_value sp l r le re cs v' (by omega), hes]
      rfl
  · intro h33 hfit b henc
    rw [encode_node] at henc
    have hl2 : (TrieNode.mk sp (.vinline v) l r).has_long_value = true := by
      rw [hlong]; simp; omega
    rw [hl2] at henc
    split at henc
    · cases henc
    · simp only [if_true] at henc
      split at henc
      · cases henc
      · split at henc
        · cases henc
        · simp only [TrieNode.value, ValueRef.hashV, ValueRef.lenV] at henc
          have hu : encode_u24 v.length = some [(v.length >>> 16) &&& 0xff,
              (v.length >>> 8) &&& 0xff, v.length &&& 0xff] := by
            rw [encode_u24, if_neg (by omega)]
          rw [hu] at henc
          simp only [Option.some.injEq] at henc
          exact ⟨_, by rw [← henc, List.append_assoc]⟩
  · intro h32 store sn sv is_root hnotin md stats store' sn' sv' hp
    rw [persist_node_recursive] at hp
    simp only [persist_child_reference] at hp
    split at hp
    · cases hp
    · rename_i serialized henc
      simp only [TrieNode.value, ValueRef.inline_bytes, hset_insert] at hp
      rw [if_pos (show LONG_VALUE_THRESHOLD < v.length by
        simpa [LONG_VALUE_THRESHOLD] using h32)] at hp
      rw [if_neg hnotin] at hp
      simp only at hp
      injection hp with h0
      injection h0 with hmd h1
      injection h1 with hstats h2
      injection h2 with hstore h3
      injection h3 with hsn hsv
      subst hstats; subst hstore; subst hsv
      refine ⟨?_, ?_, ?_⟩ <;> repeat' split
      all_goals simp [Store.save_raw_node, Store.save_raw_value, SaveStats.zero]

theorem long_value_boundary_witness :
    (List.replicate 32 7).length = 32 ∧
    encode_node (.mk [] (.vinline (List.replicate 32 7)) .empty .empty) .empty .empty none =
      some (64 :: List.replicate 32 7) ∧
    encode_node (.mk [] (.vinline (List.replicate 32 8)) .empty .empty) .empty .empty none =
      some (64 :: List.replicate 32 8) := by
  obtain ⟨stem, hb, huni⟩ :=
    (long_value_boundary [] .empty .empty .empty .empty none (List.replicate 32 7)).2.1
      (by decide) (64 :: List.replicate 32 7) rfl
  have hstem : [64] = stem := by
    apply @List.append_cancel_right _ _ (List.replicate 32 7) _
    simpa using hb
  refine ⟨by decide, rfl, ?_⟩
  have h8 := huni (List.replicate 32 8) (by decide)
  rw [← hstem] at h8
  simpa using h8

/-- Every store entry added between `old` and `new` is content-addressed. -/
def storeCA (old new : Store) : Prop :=
  (∀ hb ∈ new.nodes, hb ∈ old.nodes ∨ hb.1 = keccak256 hb.2) ∧
  (∀ hb ∈ new.values, hb ∈ old.values ∨ hb.1 = keccak256 hb.2)

theorem storeCA_refl (s : Store) : storeCA s s :=
  ⟨fun hb h => Or.inl h, fun hb h => Or.inl h⟩

theorem storeCA_trans {a b c : Store} (h1 : storeCA a b) (h2 : storeCA b c) : storeCA a c := by
  refine ⟨fun hb h => ?_, fun hb h => ?_⟩
  · rcases h2.1 hb h with h' | h'
    · exact h1.1 hb h'
    · exact Or.inr h'
  · rcases h2.2 hb h with h' | h'
    · exact h1.2 hb h'
    · exact Or.inr h'

theorem storeCA_node_step {a b : Store} (bytes : List Nat) (h : storeCA a b) :
    storeCA a (b.save_raw_node (keccak256 bytes) bytes) := by
  refine ⟨fun hb hm => ?_, h.2⟩
  simp only [Store.save_raw_node, List.mem_cons] at hm
  rcases hm with hm | hm
  · subst hm; exact Or.inr rfl
  · exact h.1 hb hm

theorem storeCA_value_step {a b : Store} (bytes : List Nat) (h : storeCA a b) :
    storeCA a (b.save_raw_value (keccak256 bytes) bytes) := by
  refine ⟨h.1, fun hb hm => ?_⟩
  simp only [Store.save_raw_value, List.mem_cons] at hm
  rcases hm with hm | hm
  · subst hm; exact Or.inr rfl
  · exact h.2 hb hm

mutual
theorem persist_node_ca (node : TrieNode) (store : Store) (sn sv : List (List Nat))
    (is_root : Bool) (md : NodeMetadata) (stats : SaveStats) (store' : Store)
    (sn' sv' : List (List Nat))
    (hp : persist_node_recursive node store sn sv is_root =
      some (md, stats, store', sn', sv')) : storeCA store store' := by
  match node with
  | .mk sp v l r =>
    rw [persist_node_recursive] at hp
    cases hpl : persist_child_reference l store sn sv with
    | none => rw [hpl] at hp; cases hp
    | some ql =>
      rw [hpl] at hp
      obtain ⟨le, ls, lstats, lstore, lsn, lsv⟩ := ql
      have ihl := persist_child_ca l store sn sv le ls lstats lstore lsn lsv hpl
      dsimp only at hp
      cases hpr : persist_child_reference r lstore lsn lsv with
      | none => rw [hpr] at hp; cases hp
      | some qr =>
        rw [hpr] at hp
        obtain ⟨re, rs, rstats, rstore, rsn, rsv⟩ := qr
        have ihr := persist_child_ca r lstore lsn lsv re rs rstats rstore rsn rsv hpr
        dsimp only at hp
        cases henc : encode_node (TrieNode.mk sp v l r) le re
            (if (TrieNode.mk sp v l r).is_terminal then none else some (ls + rs)) with
        | none => rw [henc] at hp; cases hp
        | some serialized =>
          rw [henc] at hp
          dsimp only at hp
          injection hp with h0
          injection h0 with hmd h1
          injection h1 with hstats h2
          injection h2 with hstore h3
          subst hstore
          have hbase : storeCA store rstore := storeCA_trans ihl ihr
          repeat' split
          all_goals
            first
            | exact storeCA_node_step _ (storeCA_value_step _ hbase)
            | exact storeCA_value_step _ hbase
            | exact storeCA_node_step _ hbase
            | exact hbase

theorem persist_child_ca (reference : NodeReference) (store : Store)
    (sn sv : List (List Nat)) (enc : ChildEncoding) (sz : Nat) (stats : SaveStats)
    (store' : Store) (sn' sv' : List (List Nat))
    (hp : persist_child_reference reference store sn sv =
      some (enc, sz, stats, store', sn', sv')) : storeCA store store' := by
  match reference with
  | .empty =>
    rw [persist_child_reference] at hp
    injection hp with h0
    injection h0 with h1 h2
    injection h2 with h3 h4
    injection h4 with h5 h6
    injection h6 with h7 h8
    subst h7
    exact storeCA_refl store
  | .embedded child =>
    rw [persist_child_reference] at hp
    cases hpc : persist_node_recursive child store sn sv false with
    | none => rw [hpc] at hp; cases hp
    | some qc =>
      rw [hpc] at hp
      obtain ⟨cmd, cstats, cstore, csn, csv⟩ := qc
      have ihc := persist_node_ca child store sn sv false cmd cstats cstore csn csv hpc
      dsimp only at hp
      split at hp <;>
        (injection hp with h0; injection h0 with h1 h2; injection h2 with h3 h4;
         injection h4 with h5 h6; injection h6 with h7 h8; subst h7; exact ihc)
  | .hashed hh =>
    rw [persist_child_reference] at hp
    injection hp with h0
    injection h0 with h1 h2
    injection h2 with h3 h4
    injection h4 with h5 h6
    injection h6 with h7 h8
    subst h7
    exact storeCA_refl store
end

/-- C10: every node blob written while saving a non-empty trie is
content-addressed (its store key is Keccak-256 of the written payload), and
every value blob's key is Keccak-256 of the written value bytes; the single
exception is the empty-trie save, which stores the one-byte empty-node
encoding `0x40` under the constant key Keccak-256(`0x80`) — a key that is not
the Keccak-256 hash of that stored payload. -/
theorem save_writes_content_addressed (t : Unitrie) (store : Store) :
    (t.entries.isEmpty = false → ∀ t' store' stats,
      t.save_to_store_with_stats store = some (t', store', stats) →
      (∀ hb ∈ store'.nodes, hb ∈ store.nodes ∨ hb.1 = keccak256 hb.2) ∧
      (∀ hb ∈ store'.values, hb ∈ store.values ∨ hb.1 = keccak256 hb.2)) ∧
    (t.entries.isEmpty = true → ∀ t' store' stats,
      t.save_to_store_with_stats store = some (t', store', stats) →
      store'.nodes = (keccak256 [0x80], [0x40]) :: store.nodes ∧
      store'.values = store.values) ∧
    keccak256 [0x80] ≠ keccak256 [0x40] := by
  refine ⟨?_, ?_, by decide⟩
  · intro hne t' store' stats hsave
    rw [Unitrie.save_to_store_with_stats] at hsave
    rw [if_neg (by simp [hne])] at hsave
    cases hm : t.materialize with
    | none => rw [hm] at hsave; cases hsave
    | some q =>
      rw [hm] at hsave
      obtain ⟨t1, m⟩ := q
      dsimp only at hsave
      cases hroot : m.root_node with
      | none => rw [hroot] at hsave; cases hsave
      | some root_node =>
        rw [hroot] at hsave
        dsimp only at hsave
        cases hp : persist_node_recursive root_node store t1.persisted_node_hashes
            t1.persisted_value_hashes true with
        | none => rw [hp] at hsave; cases hsave
        | some qp =>
          rw [hp] at hsave
          obtain ⟨md, pstats, pstore, psn, psv⟩ := qp
          dsimp only at hsave
          injection hsave with h0
          injection h0 with h1 h2
          injection h2 with h3 h4
          subst h3
          exact persist_node_ca root_node store t1.persisted_node_hashes
            t1.persisted_value_hashes true md pstats pstore psn psv hp
  · intro he t' store' stats hsave
    rw [Unitrie.save_to_store_with_stats, if_pos he] at hsave
    injection hsave with h0
    injection h0 with h1 h2
    injection h2 with h3 h4
    subst h3
    exact ⟨rfl, rfl⟩

/-- Concrete one-entry trie save used by witnesses: key `[3]`, value `[9]`;
the single node serializes to `[0x50, 7, 3, 9]`. -/
def nodeW3 : TrieNode := .mk [0, 0, 0, 0, 0, 0, 1, 1] (.vinline [9]) .empty .empty

def blobW3 : List Nat := [80, 7, 3, 9]

def trieW3saved : Unitrie :=
  ⟨[([3], [9])], some ⟨some nodeW3, keccak256 blobW3⟩, [keccak256 blobW3], []⟩

def storeW3 : Store := ⟨[(keccak256 blobW3, blobW3)], []⟩

theorem save_writes_content_addressed_witness :
    (Unitrie.new.put [3] [9]).entries.isEmpty = false ∧
    ((keccak256 blobW3, blobW3) ∈ Store.emptyStore.nodes ∨
      keccak256 blobW3 = keccak256 blobW3) :=
  ⟨rfl, ((save_writes_content_addressed (Unitrie.new.put [3] [9]) Store.emptyStore).1
    rfl trieW3saved storeW3 ⟨1, 1, 0⟩ rfl).1 (keccak256 blobW3, blobW3)
    (by simp [storeW3])⟩

theorem spByte_append_single (x : List Nat) (y : Nat) (hy : y = 0) :
    spByte (x ++ [y]) = spByte x := by
  subst hy
  simp only [spByte, List.length_append, List.length_singleton, List.range_succ,
    List.map_append, List.sum_append, List.map_singleton, List.sum_singleton]
  have hlast : (x ++ [0]).getD x.length 0 = 0 := by
    rw [List.getD_eq_getElem?_getD]
    simp
  rw [hlast]
  simp only [if_pos rfl, if_true, add_zero]
  congr 1
  apply List.map_congr_left
  intro k hk
  simp only [List.mem_range] at hk
  have hg : (x ++ [0]).getD k 0 = x.getD k 0 := by
    rw [List.getD_eq_getElem?_getD, List.getD_eq_getElem?_getD, List.getElem?_append_left hk]
  rw [hg]

theorem spByte_append_zeros (c : List Nat) (m : Nat) :
    spByte (c ++ List.replicate m 0) = spByte c := by
  induction m with
  | zero => simp
  | succ m ih =>
    rw [List.replicate_succ' m 0, ← List.append_assoc,
      spByte_append_single _ 0 rfl, ih]

theorem spByte_testBit : ∀ (g : Fin 8 → Fin 2) (o : Fin 8),
    (spByte ((List.finRange 8).map (fun k => ((g k) : Nat))) >>> (7 - (o : Nat))) &&& 1 =
      ((g o) : Nat) := by decide

theorem spByte_bit (c : List Nat) (h1 : ∀ x ∈ c, x ≤ 1) (h8 : c.length ≤ 8)
    (o : Nat) (ho : o < c.length) :
    (spByte c >>> (7 - o)) &&& 1 = c.getD o 0 := by
  have hgbound : ∀ k : Fin 8, (c ++ List.replicate (8 - c.length) 0).getD k.val 0 < 2 := by
    intro k
    rcases Nat.lt_or_ge k.val c.length with hk | hk
    · rw [List.getD_eq_getElem?_getD, List.getElem?_append_left hk]
      rw [List.getElem?_eq_getElem hk]
      have hmem := h1 _ (List.getElem_mem hk)
      simpa using Nat.lt_succ_of_le hmem
    · rw [List.getD_eq_getElem?_getD, List.getElem?_append_right hk]
      rcases Nat.lt_or_ge (k.val - c.length) (8 - c.length) with hk2 | hk2
      · simp [List.getElem?_replicate, hk2]
      · simp [List.getElem?_replicate, Nat.not_lt.mpr hk2]
  have hlen8 : (c ++ List.replicate (8 - c.length) 0).length = 8 := by
    simp
    omega
  have hc8 : c ++ List.replicate (8 - c.length) 0 =
      (List.finRange 8).map (fun k =>
        ((⟨(c ++ List.replicate (8 - c.length) 0).getD k.val 0, hgbound k⟩ : Fin 2) : Nat)) := by
    apply List.ext_getElem
    · simp [hlen8]
    · intro i hi1 hi2
      simp only [List.getElem_map, List.getElem_finRange, Fin.cast_mk, Fin.val_mk]
      rw [List.getD_eq_getElem?_getD, List.getElem?_eq_getElem hi1]
      rfl
  have key := spByte_testBit
    (fun k => ⟨(c ++ List.replicate (8 - c.length) 0).getD k.val 0, hgbound k⟩)
    ⟨o, by omega⟩
  rw [← hc8] at key
  have hsame : (c ++ List.replicate (8 - c.length) 0).getD o 0 = c.getD o 0 := by
    rw [List.getD_eq_getElem?_getD, List.getElem?_append_left ho, ← List.getD_eq_getElem?_getD]
  simp only [Fin.val_mk] at key
  rw [spByte_append_zeros, hsame] at key
  exact key

theorem sp_encode_length (b : List Nat) :
    (sp_encode b).length = calculate_encoded_length b.length := by
  simp [sp_encode]

theorem sp_decode_encode (b : List Nat) (hbits : ∀ x ∈ b, x ≤ 1) :
    sp_decode (sp_encode b) b.length = b := by
  unfold sp_decode
  apply List.ext_getElem
  · simp
  · intro i hi1 hi2
    simp only [List.getElem_map, List.getElem_range]
    have hib : i < b.length := by simpa using hi2
    have hj : i / 8 < calculate_encoded_length b.length := by
      simp only [calculate_encoded_length]
      by_cases h0 : b.length % 8 = 0 <;> simp [h0] <;> omega
    have hgd : (sp_encode b).getD (i / 8) 0 = spByte ((b.drop (8 * (i / 8))).take 8) := by
      rw [sp_encode, List.getD_eq_getElem?_getD, List.getElem?_map, List.getElem?_range hj]
      rfl
    rw [hgd]
    have hlenc : i % 8 < ((b.drop (8 * (i / 8))).take 8).length := by
      simp only [List.length_take, List.length_drop]
      have := Nat.div_add_mod i 8
      have : i % 8 < 8 := Nat.mod_lt _ (by omega)
      omega
    have hchunk := spByte_bit ((b.drop (8 * (i / 8))).take 8)
      (fun x hx => hbits x (List.mem_of_mem_drop (List.mem_of_mem_take hx)))
      (by simpa using List.length_take_le 8 _) (i % 8) hlenc
    rw [hchunk]
    have hi' : 8 * (i / 8) + i % 8 = i := Nat.div_add_mod i 8
    rw [List.getD_eq_getElem?_getD, List.getElem?_take,
      if_pos (show i % 8 < 8 from Nat.mod_lt _ (by omega)), List.getElem?_drop, hi',
      List.getElem?_eq_getElem hib]
    rfl

theorem leVal_cons (b : Nat) (rest : List Nat) : leVal (b :: rest) = b + 256 * leVal rest := rfl

theorem leBytes_length (k n : Nat) : (leBytes k n).length = k := by simp [leBytes]

theorem leBytes_succ (k n : Nat) : leBytes (k + 1) n = (n % 256) :: leBytes k (n >>> 8) := by
  simp only [leBytes, List.range_succ_eq_map, List.map_cons, List.map_map]
  congr 1
  apply List.map_congr_left
  intro a ha
  simp only [Function.comp_apply]
  rw [← Nat.shiftRight_add]
  congr 2
  omega

theorem leVal_leBytes (k n : Nat) : leVal (leBytes k n) = n % 2 ^ (8 * k) := by
  induction k generalizing n with
  | zero => simp [leBytes, leVal, Nat.mod_one]
  | succ k ih =>
    rw [leBytes_succ, leVal_cons, ih, Nat.shiftRight_eq_div_pow]
    have h2 : 2 ^ (8 * (k + 1)) = 256 * 2 ^ (8 * k) := by
      rw [show 8 * (k + 1) = 8 + 8 * k by ring, pow_add]
      norm_num
    rw [h2, Nat.mod_mul]

theorem decodeLe_append (pre mid post : List Nat) (k : Nat) (hk : mid.length = k) :
    decodeLe (pre ++ (mid ++ post)) pre.length k =
      some (leVal mid, pre.length + k) := by
  have hslice : ((pre ++ (mid ++ post)).drop pre.length).take k = mid := by
    rw [List.drop_left, List.take_left' hk]
  rw [decodeLe, if_neg (by simp only [List.length_append, gt_iff_lt, not_lt]; omega), hslice]

theorem getD_append_head (pre : List Nat) (b : Nat) (rest : List Nat) :
    (pre ++ (b :: rest)).getD pre.length 0 = b := by
  rw [List.getD_eq_getElem?_getD, List.getElem?_append_right (Nat.le_refl _)]
  simp

theorem varint_round_trip (pre post : List Nat) (n : Nat) (hn : n < 2 ^ 64) :
    varint_decode_from_slice (pre ++ (varint_encode n ++ post)) pre.length =
      some (n, pre.length + (varint_encode n).length) := by
  rw [varint_encode]
  by_cases h1 : n < 0xfd
  · rw [if_pos h1]
    rw [varint_decode_from_slice, if_neg (by simp only [List.length_append]; simp)]
    rw [List.cons_append, getD_append_head]
    rw [if_neg (by omega), if_neg (by omega), if_neg (by omega)]
    simp
  · rw [if_neg h1]
    by_cases h2 : n ≤ 0xffff
    · rw [if_pos h2]
      rw [varint_decode_from_slice, if_neg (by simp only [List.length_append]; simp)]
      rw [List.cons_append, getD_append_head, if_pos rfl]
      have := decodeLe_append (pre ++ [0xfd]) (leBytes 2 n) post 2 (leBytes_length 2 n)
      simp only [List.length_append, List.length_singleton] at this
      rw [show pre ++ (0xfd :: (leBytes 2 n ++ post)) =
        (pre ++ [0xfd]) ++ (leBytes 2 n ++ post) by simp] at *
      rw [this, leVal_leBytes]
      have hmod : n % 2 ^ (8 * 2) = n := Nat.mod_eq_of_lt (by omega)
      rw [hmod]
      simp only [List.length_cons, List.length_append, leBytes_length]
    · rw [if_neg h2]
      by_cases h3 : n ≤ 0xffffffff
      · rw [if_pos h3]
        rw [varint_decode_from_slice, if_neg (by simp only [List.length_append]; simp)]
        rw [List.cons_append, getD_append_head]
        rw [if_neg (by omega), if_pos rfl]
        have := decodeLe_append (pre ++ [0xfe]) (leBytes 4 n) post 4 (leBytes_length 4 n)
        simp only [List.length_append, List.length_singleton] at this
        rw [show pre ++ (0xfe :: (leBytes 4 n ++ post)) =
          (pre ++ [0xfe]) ++ (leBytes 4 n ++ post) by simp] at *
        rw [this, leVal_leBytes]
        have hmod : n % 2 ^ (8 * 4) = n := Nat.mod_eq_of_lt (by omega)
        rw [hmod]
        simp only [List.length_cons, leBytes_length]
      · rw [if_neg h3]
        rw [varint_decode_from_slice, if_neg (by simp only [List.length_append]; simp)]
        rw [List.cons_append, getD_append_head]
        rw [if_neg (by omega), if_neg (by omega), if_pos rfl]
        have := decodeLe_append (pre ++ [0xff]) (leBytes 8 n) post 8 (leBytes_length 8 n)
        simp only [List.length_append, List.length_singleton] at this
        rw [show pre ++ (0xff :: (leBytes 8 n ++ post)) =
          (pre ++ [0xff]) ++ (leBytes 8 n ++ post) by simp] at *
        rw [this, leVal_leBytes]
        have hmod : n % 2 ^ (8 * 8) = n := Nat.mod_eq_of_lt (by omega)
        rw [hmod]
        simp only [List.length_cons, leBytes_length]

theorem deserialize_after_header (b header : List Nat) (hbits : ∀ x ∈ b, x ≤ 1)
    (hread : read_path_bit_length (header ++ sp_encode b) 0 =
      some (b.length, header.length)) :
    deserialize_from_slice (header ++ sp_encode b) 0 true =
      some (b, (header ++ sp_encode b).length) := by
  rw [deserialize_from_slice]
  simp only [Bool.not_true, Bool.false_eq_true, if_false]
  rw [hread]
  dsimp only
  have hlen : calculate_encoded_length b.length = (sp_encode b).length :=
    (sp_encode_length b).symm
  rw [hlen]
  rw [if_neg (show ¬(header.length + (sp_encode b).length > (header ++ sp_encode b).length)
    by simp)]
  rw [List.drop_left, List.take_length, sp_decode_encode b hbits]
  simp

/-- C8: for every non-empty 0/1 bit sequence `b` (of machine-size length),
the shared-path serializer emits the compact header (`|b| − 1` for lengths
1..32, `|b| − 128` for lengths 160..382, otherwise `0xFF` + varint of `|b|`)
followed by ⌈|b|/8⌉ bytes of MSB-first packed bits, and deserializing that
output returns exactly `b` while consuming every emitted byte; a zero-length
path serializes to zero bytes. -/
theorem shared_path_serializer_round_trip (b : List Nat) (hne : b ≠ [])
    (hbits : ∀ x ∈ b, x ≤ 1) (hmach : b.length < 2 ^ 64) :
    serialize_into b [] =
      (if 1 ≤ b.length ∧ b.length ≤ 32 then [b.length - 1]
       else if 160 ≤ b.length ∧ b.length ≤ 382 then [b.length - 128]
       else 0xff :: varint_encode b.length) ++ sp_encode b ∧
    (sp_encode b).length = (b.length + 7) / 8 ∧
    deserialize_from_slice (serialize_into b []) 0 true =
      some (b, (serialize_into b []).length) ∧
    serialize_into [] [] = ([] : List Nat) := by
  have hser : serialize_into b [] =
      (if 1 ≤ b.length ∧ b.length ≤ 32 then [b.length - 1]
       else if 160 ≤ b.length ∧ b.length ≤ 382 then [b.length - 128]
       else 0xff :: varint_encode b.length) ++ sp_encode b := by
    rw [serialize_into, if_neg (by simpa using hne)]
    rfl
  have hlen1 : 1 ≤ b.length := by
    cases b with
    | nil => exact absurd rfl hne
    | cons a l => simp
  refine ⟨hser, ?_, ?_, rfl⟩
  · rw [sp_encode_length, calculate_encoded_length]
    by_cases h0 : b.length % 8 = 0 <;> simp [h0] <;> omega
  · rw [hser]
    by_cases hA : 1 ≤ b.length ∧ b.length ≤ 32
    · rw [if_pos hA]
      apply deserialize_after_header b _ hbits
      rw [read_path_bit_length, if_neg (by simp)]
      simp only [List.cons_append, List.getD_cons_zero]
      rw [if_pos (by omega)]
      simp only [List.length_singleton, Option.some.injEq, Prod.mk.injEq]
      exact ⟨by omega, trivial⟩
    · rw [if_neg hA]
      by_cases hB : 160 ≤ b.length ∧ b.length ≤ 382
      · rw [if_pos hB]
        apply deserialize_after_header b _ hbits
        rw [read_path_bit_length, if_neg (by simp)]
        simp only [List.cons_append, List.getD_cons_zero]
        rw [if_neg (by omega), if_pos (by omega)]
        simp only [List.length_singleton, Option.some.injEq, Prod.mk.injEq]
        exact ⟨by omega, trivial⟩
      · rw [if_neg hB]
        apply deserialize_after_header b _ hbits
        rw [read_path_bit_length, if_neg (by simp)]
        simp only [List.cons_append, List.getD_cons_zero]
        rw [if_neg (by omega), if_neg (by omega)]
        have hv := varint_round_trip [0xff] (sp_encode b) b.length hmach
        simp only [List.length_singleton] at hv
        rw [List.singleton_append] at hv
        rw [hv]
        simp only [List.length_cons, Option.some.injEq, Prod.mk.injEq]
        exact ⟨trivial, by omega⟩

theorem shared_path_serializer_round_trip_witness :
    ([1, 0, 1] : List Nat) ≠ [] ∧ ([1, 0, 1] : List Nat).length < 2 ^ 64 ∧
    serialize_into [1, 0, 1] [] = [2, 160] ∧
    deserialize_from_slice [2, 160] 0 true = some ([1, 0, 1], 2) := by
  have h := (shared_path_serializer_round_trip [1, 0, 1] (by decide)
    (by decide) (by decide)).2.2.1
  rw [(rfl : serialize_into [1, 0, 1] [] = [2, 160])] at h
  exact ⟨by decide, by decide, rfl, h⟩

theorem lexLt_irrefl (a : List Nat) : lexLt a a = false := by
  induction a with
  | nil => rfl
  | cons x xs ih => simp [lexLt, ih]

theorem lexLt_asymm (a b : List Nat) (h : lexLt a b = true) : lexLt b a = false := by
  induction a generalizing b with
  | nil =>
    cases b with
    | nil => simpa [lexLt] using h
    | cons y ys => simp [lexLt]
  | cons x xs ih =>
    cases b with
    | nil => simp [lexLt] at h
    | cons y ys =>
      simp only [lexLt] at h ⊢
      by_cases hxy : x < y
      · rw [if_neg (by omega), if_pos (by omega)]
      · rw [if_neg hxy] at h
        by_cases hyx : y < x
        · rw [if_pos hyx] at h
          simp at h
        · rw [if_neg hyx] at h
          rw [if_neg hyx, if_neg hxy]
          exact ih ys h

theorem lexLt_eq_of_not (a b : List Nat) (h1 : lexLt a b = false)
    (h2 : lexLt b a = false) : a = b := by
  induction a generalizing b with
  | nil =>
    cases b with
    | nil => rfl
    | cons y ys => simp [lexLt] at h1
  | cons x xs ih =>
    cases b with
    | nil => simp [lexLt] at h2
    | cons y ys =>
      simp only [lexLt] at h1 h2
      by_cases hxy : x < y
      · rw [if_pos hxy] at h1; simp at h1
      · by_cases hyx : y < x
        · rw [if_pos hyx] at h2; simp at h2
        · rw [if_neg hxy, if_neg hyx] at h1
          rw [if_neg hyx, if_neg hxy] at h2
          have : x = y := by omega
          rw [this, ih ys h1 h2]

theorem lexLt_trans (a b c : List Nat) (h1 : lexLt a b = true)
    (h2 : lexLt b c = true) : lexLt a c = true := by
  induction a generalizing b c with
  | nil =>
    cases c with
    | nil =>
      cases b with
      | nil => simpa [lexLt] using h1
      | cons y ys => simp [lexLt] at h2
    | cons z zs => simp [lexLt]
  | cons x xs ih =>
    cases b with
    | nil => simp [lexLt] at h1
    | cons y ys =>
      cases c with
      | nil => simp [lexLt] at h2
      | cons z zs =>
        simp only [lexLt] at h1 h2 ⊢
        by_cases hxy : x < y
        · have hyz : y ≤ z := by
            by_cases h : y < z
            · omega
            · rw [if_neg h] at h2
              by_cases h' : z < y
              · rw [if_pos h'] at h2; simp at h2
              · omega
          rw [if_pos (by omega)]
        · rw [if_neg hxy] at h1
          by_cases hyx : y < x
          · rw [if_pos hyx] at h1; simp at h1
          · rw [if_neg hyx] at h1
            have hxy' : x = y := by omega
            subst hxy'
            by_cases hxz : x < z
            · rw [if_pos hxz]
            · rw [if_neg hxz] at h2 ⊢
              by_cases hzx : z < x
              · rw [if_pos hzx] at h2; simp at h2
              · rw [if_neg hzx] at h2 ⊢
                exact ih ys zs h1 h2

theorem mapInsert_comm_lt (k1 k2 v1 v2 : List Nat) (hlt : lexLt k1 k2 = true)
    (m : List (List Nat × List Nat)) :
    mapInsert k2 v2 (mapInsert k1 v1 m) = mapInsert k1 v1 (mapInsert k2 v2 m) := by
  have h21 : lexLt k2 k1 = false := lexLt_asymm _ _ hlt
  induction m with
  | nil => simp [mapInsert, hlt, h21]
  | cons e rest ih =>
    obtain ⟨k, v⟩ := e
    by_cases h1k : lexLt k1 k = true
    · by_cases h2k : lexLt k2 k = true
      · simp [mapInsert, hlt, h21, h1k, h2k]
      · by_cases hk2 : lexLt k k2 = true
        · simp [mapInsert, hlt, h21, h1k, h2k, hk2]
        · have hkk2 : k = k2 :=
            lexLt_eq_of_not _ _ (by simpa using hk2) (by simpa using h2k)
          subst hkk2
          simp [mapInsert, hlt, h21, h1k, lexLt_irrefl]
    · by_cases hk1 : lexLt k k1 = true
      · have hk2 : lexLt k k2 = true := lexLt_trans _ _ _ hk1 hlt
        have h2k : lexLt k2 k = false := lexLt_asymm _ _ hk2
        simp [mapInsert, hlt, h21, h1k, hk1, hk2, h2k, ih]
      · have hkk1 : k = k1 :=
          lexLt_eq_of_not _ _ (by simpa using hk1) (by simpa using h1k)
        subst hkk1
        simp [mapInsert, hlt, h21, h1k, lexLt_irrefl]

theorem mapInsert_comm (k1 k2 v1 v2 : List Nat) (hne : k1 ≠ k2)
    (m : List (List Nat × List Nat)) :
    mapInsert k2 v2 (mapInsert k1 v1 m) = mapInsert k1 v1 (mapInsert k2 v2 m) := by
  by_cases h12 : lexLt k1 k2 = true
  · exact mapInsert_comm_lt k1 k2 v1 v2 h12 m
  · by_cases h21 : lexLt k2 k1 = true
    · exact (mapInsert_comm_lt k2 k1 v2 v1 h21 m).symm
    · exact absurd (lexLt_eq_of_not _ _ (by simpa using h12) (by simpa using h21)) hne

/-- A sequence of `put` operations. -/
def applyPuts (l : List (List Nat × List Nat)) (t : Unitrie) : Unitrie :=
  l.foldl (fun acc e => acc.put e.1 e.2) t

mutual
/-- Every value in the tree has a known length of at most `0xffffff` bytes
(the `u24` bound of the wire format). -/
def valuesShortNode : TrieNode → Bool
  | .mk _ v l r =>
    (match v.lenV with
     | some n => decide (n ≤ 0xffffff)
     | none => false) && valuesShortRef l && valuesShortRef r
def valuesShortRef : NodeReference → Bool
  | .empty => true
  | .embedded n => valuesShortNode n
  | .hashed _ => true
end

theorem encode_node_total (node : TrieNode) (le re : ChildEncoding) (cs : Option Nat)
    (hguard : ((le.is_present || re.is_present) && cs.isNone) = false)
    (hlen : ∀ n, node.value.lenV = some n → n ≤ 0xffffff)
    (hlenSome : node.value.lenV ≠ none)
    (hle : ∀ bytes, le = .embedded bytes → bytes.length ≤ 255)
    (hre : ∀ bytes, re = .embedded bytes → bytes.length ≤ 255) :
    ∃ b, encode_node node le re cs = some b := by
  rw [encode_node]
  rw [hguard]
  simp only [Bool.false_eq_true, if_false]
  have hencl : ∀ (r : ChildEncoding) (out : List Nat),
      (∀ bytes, r = .embedded bytes → bytes.length ≤ 255) →
      ∃ o, encode_reference r out = some o := by
    intro r out hr
    match r with
    | .empty => exact ⟨out, rfl⟩
    | .embedded bytes =>
      rw [encode_reference, if_neg (by have := hr bytes rfl; omega)]
      exact ⟨_, rfl⟩
    | .hashed hh => exact ⟨_, rfl⟩
  obtain ⟨o1, ho1⟩ := hencl le _ hle
  rw [ho1]
  dsimp only
  obtain ⟨o2, ho2⟩ := hencl re o1 hre
  rw [ho2]
  dsimp only
  by_cases hl : node.has_long_value
  · rw [hl]
    simp only [if_true]
    cases hv : node.value.lenV with
    | none => exact absurd hv hlenSome
    | some n =>
      have hh : ∃ hh, node.value.hashV = some hh := by
        cases hval : node.value with
        | vempty => rw [hval] at hv; simp [ValueRef.lenV] at hv; subst hv
                    rw [TrieNode.has_long_value, hval] at hl
                    simp [ValueRef.has_long_value, ValueRef.lenV, LONG_VALUE_THRESHOLD] at hl
        | vinline w => exact ⟨keccak256 w, rfl⟩
        | vhashed hh ln => exact ⟨hh, rfl⟩
      obtain ⟨hhv, hhv'⟩ := hh
      rw [hhv']
      dsimp only
      rw [encode_u24, if_neg (by have := hlen n hv; omega)]
      exact ⟨_, rfl⟩
  · rw [Bool.not_eq_true] at hl
    rw [hl]
    simp only [Bool.false_eq_true, if_false]
    cases node.value.inline_bytes <;> exact ⟨_, rfl⟩

theorem is_empty_eq (r : NodeReference) (h : r.is_empty = true) : r = .empty := by
  cases r with
  | empty => rfl
  | embedded n => simp [NodeReference.is_empty] at h
  | hashed hh => simp [NodeReference.is_empty] at h

mutual
theorem compute_node_total (node : TrieNode) (hnh : noHashedNode node = true)
    (hvs : valuesShortNode node = true) :
    ∃ md, compute_node_metadata node = some md := by
  match node with
  | .mk sp v l r =>
    rw [noHashedNode, Bool.and_eq_true] at hnh
    rw [valuesShortNode, Bool.and_eq_true, Bool.and_eq_true] at hvs
    obtain ⟨⟨hvlen, hvl⟩, hvr⟩ := hvs
    obtain ⟨pl, hpl, hple, hplp⟩ := compute_child_total l hnh.1 hvl
    obtain ⟨pr, hpr, hpre, hprp⟩ := compute_child_total r hnh.2 hvr
    rw [compute_node_metadata, hpl]
    obtain ⟨le, ls⟩ := pl
    dsimp only
    rw [hpr]
    obtain ⟨re, rs⟩ := pr
    dsimp only
    have hlenV : ∃ n, v.lenV = some n ∧ n ≤ 0xffffff := by
      cases hv : v.lenV with
      | none => rw [hv] at hvlen; simp at hvlen
      | some n =>
        rw [hv] at hvlen
        simp only [decide_eq_true_eq] at hvlen
        exact ⟨n, rfl, hvlen⟩
    obtain ⟨n, hn, hnle⟩ := hlenV
    have henc := encode_node_total (TrieNode.mk sp v l r) le re
      (if (TrieNode.mk sp v l r).is_terminal then none else some (ls + rs))
      ?_ ?_ ?_ (by simpa using hple) (by simpa using hpre)
    · obtain ⟨b, hb⟩ := henc
      rw [hb]
      exact ⟨_, rfl⟩
    · by_cases hterm : (TrieNode.mk sp v l r).is_terminal = true
      · rw [if_pos hterm]
        rw [TrieNode.is_terminal, Bool.and_eq_true] at hterm
        have hl0 : l = .empty := is_empty_eq _ hterm.1
        have hr0 : r = .empty := is_empty_eq _ hterm.2
        subst hl0; subst hr0
        rw [compute_child_encoding] at hpl hpr
        injection hpl with hpl'
        injection hpr with hpr'
        injection hpl' with hple' hpls
        injection hpr' with hpre' hprs
        rw [← hple', ← hpre']
        rfl
      · rw [if_neg hterm]
        simp
    · intro m hm
      rw [TrieNode.value] at hm
      rw [hm] at hn
      injection hn with hn'
      omega
    · rw [TrieNode.value]
      intro hcon
      rw [hcon] at hn
      cases hn

theorem compute_child_total (ref : NodeReference) (hnh : noHashedRef ref = true)
    (hvs : valuesShortRef ref = true) :
    ∃ p, compute_child_encoding ref = some p ∧
      (∀ bytes, p.1 = .embedded bytes → bytes.length ≤ 255) ∧
      (ref = .empty → p.1 = .empty) := by
  match ref with
  | .empty => exact ⟨(.empty, 0), rfl, by simp, fun _ => rfl⟩
  | .embedded child =>
    obtain ⟨md, hmd⟩ := compute_node_total child (by simpa [noHashedRef] using hnh)
      (by simpa [valuesShortRef] using hvs)
    rw [compute_child_encoding, hmd]
    dsimp only
    by_cases hemb : md.embeddable = true
    · rw [if_pos hemb]
      refine ⟨_, rfl, ?_, by simp⟩
      intro bytes hb
      injection hb with hb'
      subst hb'
      obtain ⟨le, ls, re, rs, _, _, _, _, _, hembid⟩ := compute_md_spec child md hmd
      rw [hembid, embeddableB, Bool.and_eq_true] at hemb
      have := hemb.2
      simp only [decide_eq_true_eq, MAX_EMBEDDED_NODE_SIZE_IN_BYTES] at this
      omega
    · rw [if_neg hemb]
      exact ⟨_, rfl, by simp, by simp⟩
  | .hashed hh => simp [noHashedRef] at hnh
end

theorem foldl_value_pick (l : List (List Nat × List Nat)) (acc : Option (List Nat))
    (w : List Nat)
    (h : l.foldl (fun a e => if e.1.isEmpty then some e.2 else a) acc = some w) :
    (∃ e ∈ l, e.2 = w) ∨ acc = some w := by
  induction l generalizing acc with
  | nil => exact Or.inr h
  | cons e rest ih =>
    rw [List.foldl_cons] at h
    rcases ih _ h with hmem | hacc
    · obtain ⟨e', he', hw⟩ := hmem
      exact Or.inl ⟨e', List.mem_cons_of_mem _ he', hw⟩
    · by_cases hemp : e.1.isEmpty
      · rw [if_pos hemp] at hacc
        injection hacc with hacc'
        exact Or.inl ⟨e, List.mem_cons_self .., hacc'⟩
      · rw [if_neg hemp] at hacc
        exact Or.inr hacc

theorem build_node_child_values (entries : List (List Nat × List Nat))
    (p : List Nat × List Nat → Bool) (k : Nat) (e : List Nat × List Nat)
    (he : e ∈ ((entries.map (fun e => (e.1.drop k, e.2))).filter p).map
      (fun e => (e.1.tail, e.2))) :
    ∃ e' ∈ entries, e'.2 = e.2 := by
  simp only [List.mem_map, List.mem_filter] at he
  obtain ⟨a, ⟨⟨b, hb, hba⟩, _⟩, hae⟩ := he
  exact ⟨b, hb, by rw [← hae]; rw [← hba]⟩

theorem build_node_wf (fuel : Nat) (entries : List (List Nat × List Nat))
    (hvals : ∀ e ∈ entries, e.2.length ≤ 0xffffff) :
    noHashedNode (build_node fuel entries) = true ∧
    valuesShortNode (build_node fuel entries) = true := by
  induction fuel generalizing entries with
  | zero => exact ⟨rfl, rfl⟩
  | succ fuel ih =>
    rw [build_node]
    constructor
    · rw [noHashedNode, Bool.and_eq_true]
      constructor
      · split
        · rfl
        · rw [noHashedRef]
          refine (ih _ ?_).1
          intro e he
          obtain ⟨e', he', hv⟩ := build_node_child_values entries _ _ e he
          rw [← hv]
          exact hvals e' he'
      · split
        · rfl
        · rw [noHashedRef]
          refine (ih _ ?_).1
          intro e he
          obtain ⟨e', he', hv⟩ := build_node_child_values entries _ _ e he
          rw [← hv]
          exact hvals e' he'
    · rw [valuesShortNode, Bool.and_eq_true, Bool.and_eq_true]
      refine ⟨⟨?_, ?_⟩, ?_⟩
      · cases hval : (entries.map (fun e => (e.1.drop
            (longest_common_suffix_length (entries.map Prod.fst)), e.2))).foldl
            (fun a e => if e.1.isEmpty then some e.2 else a) none with
        | none =>
          simp [valueRefInline, ValueRef.lenV]
        | some w =>
          rcases foldl_value_pick _ _ _ hval with hmem | hacc
          · obtain ⟨e, he, hw⟩ := hmem
            simp only [List.mem_map] at he
            obtain ⟨e', he', he'e⟩ := he
            have hwlen : w.length ≤ 0xffffff := by
              rw [← hw, ← he'e]
              exact hvals e' he'
            simp only [Option.getD_some, valueRefInline]
            by_cases hw0 : w = []
            · simp [hw0, ValueRef.lenV]
            · rw [if_neg hw0]
              simp only [ValueRef.lenV, decide_eq_true_eq]
              omega
          · cases hacc
      · split
        · rfl
        · rw [valuesShortRef]
          refine (ih _ ?_).2
          intro e he
          obtain ⟨e', he', hv⟩ := build_node_child_values entries _ _ e he
          rw [← hv]
          exact hvals e' he'
      · split
        · rfl
        · rw [valuesShortRef]
          refine (ih _ ?_).2
          intro e he
          obtain ⟨e', he', hv⟩ := build_node_child_values entries _ _ e he
          rw [← hv]
          exact hvals e' he'

theorem mem_mapInsert (k v : List Nat) (m : List (List Nat × List Nat))
    (e : List Nat × List Nat) (he : e ∈ mapInsert k v m) : e = (k, v) ∨ e ∈ m := by
  induction m with
  | nil => simpa [mapInsert] using he
  | cons a rest ih =>
    rw [mapInsert] at he
    split at he
    · simp only [List.mem_cons] at he
      rcases he with he | he | he
      · exact Or.inl he
      · exact Or.inr (by rw [he]; exact List.mem_cons_self ..)
      · exact Or.inr (List.mem_cons_of_mem _ he)
    · split at he
      · simp only [List.mem_cons] at he
        rcases he with he | he
        · exact Or.inr (by rw [he]; exact List.mem_cons_self ..)
        · rcases ih he with h | h
          · exact Or.inl h
          · exact Or.inr (List.mem_cons_of_mem _ h)
      · simp only [List.mem_cons] at he
        rcases he with he | he
        · exact Or.inl he
        · exact Or.inr (List.mem_cons_of_mem _ he)

theorem applyPuts_mem (l : List (List Nat × List Nat)) (t : Unitrie)
    (e : List Nat × List Nat) (he : e ∈ (applyPuts l t).entries) :
    e ∈ l ∨ e ∈ t.entries := by
  induction l generalizing t with
  | nil => exact Or.inr he
  | cons a rest ih =>
    rw [applyPuts, List.foldl_cons] at he
    rcases ih (t.put a.1 a.2) he with h | h
    · exact Or.inl (List.mem_cons_of_mem _ h)
    · rw [Unitrie.put] at h
      split at h
      · exact Or.inr (List.mem_of_mem_filter h)
      · rcases mem_mapInsert _ _ _ _ h with h' | h'
        · exact Or.inl (by rw [h']; exact List.mem_cons_self ..)
        · exact Or.inr h'

theorem applyPuts_materialized (l : List (List Nat × List Nat)) :
    (applyPuts l Unitrie.new).materialized = none := by
  suffices h : ∀ (l : List (List Nat × List Nat)) (t : Unitrie),
      (applyPuts l t).materialized = none ∨ applyPuts l t = t by
    rcases h l Unitrie.new with h' | h'
    · exact h'
    · rw [h']; rfl
  intro l
  induction l with
  | nil => exact fun t => Or.inr rfl
  | cons a rest ih =>
    intro t
    rw [applyPuts, List.foldl_cons]
    rcases ih (t.put a.1 a.2) with h' | h'
    · exact Or.inl h'
    · rw [applyPuts] at h'
      rw [h']
      rw [Unitrie.put]
      split <;> exact Or.inl rfl

theorem build_root_node_wf (entries : List (List Nat × List Nat)) (rn : TrieNode)
    (hvals : ∀ e ∈ entries, e.2.length ≤ 0xffffff)
    (hb : build_root_node entries = some rn) :
    noHashedNode rn = true ∧ valuesShortNode rn = true := by
  rw [build_root_node] at hb
  split at hb
  · cases hb
  · injection hb with hb'
    rw [← hb']
    apply build_node_wf
    intro e he
    simp only [List.mem_map] at he
    obtain ⟨e', he', hee⟩ := he
    rw [← hee]
    exact hvals e' he'

theorem root_hash_some (t : Unitrie) (hm : t.materialized = none)
    (hvals : ∀ e ∈ t.entries, e.2.length ≤ 0xffffff) :
    ∃ t' h, t.root_hash = some (t', h) ∧ h.length = 32 := by
  rw [Unitrie.root_hash, Unitrie.materialize, hm]
  dsimp only
  cases hb : build_root_node t.entries with
  | none =>
    refine ⟨_, _, rfl, ?_⟩
    rw [empty_trie_hash]
    exact keccak256_length _
  | some rn =>
    obtain ⟨hnh, hvs⟩ := build_root_node_wf t.entries rn hvals hb
    obtain ⟨md, hmd⟩ := compute_node_total rn hnh hvs
    dsimp only
    rw [hmd]
    dsimp only
    refine ⟨_, _, rfl, ?_⟩
    obtain ⟨_, _, _, _, _, _, _, hhash, _, _⟩ := compute_md_spec rn md hmd
    rw [hhash]
    exact keccak256_length _

/-- C2: two sequences of `put` operations inserting the same set of
(key, value) pairs (non-empty values) in different orders produce the same
trie; their materialized root hashes are equal 32-byte hashes, and the root
hash is a pure function of the final entries map. -/
theorem root_hash_insertion_order_independent
    (l1 l2 : List (List Nat × List Nat)) (hperm : l1.Perm l2)
    (hnodup : (l1.map Prod.fst).Nodup) (hvals : ∀ e ∈ l1, e.2 ≠ [])
    (hshort : ∀ e ∈ l1, e.2.length ≤ 0xffffff) :
    applyPuts l1 Unitrie.new = applyPuts l2 Unitrie.new ∧
    (∃ t1' t2' h, (applyPuts l1 Unitrie.new).root_hash = some (t1', h) ∧
      (applyPuts l2 Unitrie.new).root_hash = some (t2', h) ∧ h.length = 32) ∧
    (∀ t1 t2 : Unitrie, t1.entries = t2.entries → t1.materialized = none →
      t2.materialized = none →
      (t1.root_hash).map (fun r => r.2) = (t2.root_hash).map (fun r => r.2)) := by
  have hequal : applyPuts l1 Unitrie.new = applyPuts l2 Unitrie.new := by
    apply List.Perm.foldl_eq' hperm
    intro x hx y hy z
    by_cases hxy : x = y
    · rw [hxy]
    · have hkey : x.1 ≠ y.1 := by
        intro hk
        exact hxy (List.inj_on_of_nodup_map hnodup hx hy hk)
      have hvx := hvals x hx
      have hvy := hvals y hy
      have hent := mapInsert_comm x.1 y.1 x.2 y.2 hkey z.entries
      simp [Unitrie.put, List.isEmpty_iff, hvx, hvy, hent]
  refine ⟨hequal, ?_, ?_⟩
  · have hm1 := applyPuts_materialized l1
    have hv1 : ∀ e ∈ (applyPuts l1 Unitrie.new).entries, e.2.length ≤ 0xffffff := by
      intro e he
      rcases applyPuts_mem l1 Unitrie.new e he with h | h
      · exact hshort e h
      · simp [Unitrie.new] at h
    obtain ⟨t', h, hrh, hlen⟩ := root_hash_some _ hm1 hv1
    exact ⟨t', t', h, hrh, by rw [← hequal]; exact hrh, hlen⟩
  · intro t1 t2 hent hm1 hm2
    rw [Unitrie.root_hash, Unitrie.root_hash, Unitrie.materialize, Unitrie.materialize,
      hm1, hm2, hent]
    dsimp only
    cases build_root_node t2.entries with
    | none => rfl
    | some rn =>
      dsimp only
      cases compute_node_metadata rn with
      | none => rfl
      | some md => rfl

theorem root_hash_insertion_order_independent_witness :
    ([([1], [7]), ([2], [8])] : List (List Nat × List Nat)).Perm
      [([2], [8]), ([1], [7])] ∧
    applyPuts [([1], [7]), ([2], [8])] Unitrie.new =
      applyPuts [([2], [8]), ([1], [7])] Unitrie.new :=
  ⟨List.Perm.swap .., (root_hash_insertion_order_independent
    [([1], [7]), ([2], [8])] [([2], [8]), ([1], [7])] (List.Perm.swap ..)
    (by decide) (by decide) (by decide)).1⟩

theorem lexLt_append_same (q x y : List Nat) :
    lexLt (q ++ x) (q ++ y) = lexLt x y := by
  induction q with
  | nil => rfl
  | cons c q' ih => simp [lexLt, ih]

theorem lexLt_nil_right (x : List Nat) : lexLt x [] = false := by
  cases x <;> rfl

theorem lexLt_not_lt_of_prefix (p k : List Nat) (h : p <+: k) :
    lexLt k p = false := by
  obtain ⟨r, rfl⟩ := h
  calc lexLt (p ++ r) p = lexLt (p ++ r) (p ++ []) := by rw [List.append_nil]
    _ = lexLt r [] := lexLt_append_same p r []
    _ = false := lexLt_nil_right r

theorem pub_rev_spec (l ub : List Nat) (h : prefix_upper_bound_rev l = some ub) :
    ∃ m b rest, l = List.replicate m 255 ++ b :: rest ∧ b ≠ 255 ∧
      ub = ((b + 1) :: rest).reverse := by
  induction l generalizing ub with
  | nil => cases h
  | cons c l' ih =>
    rw [prefix_upper_bound_rev] at h
    split at h
    · injection h with h'
      exact ⟨0, c, l', by simp, by assumption, h'.symm⟩
    · obtain ⟨m, b, rest, hl, hb, hub⟩ := ih _ h
      rename_i hc
      simp only [ne_eq, Decidable.not_not] at hc
      exact ⟨m + 1, b, rest, by rw [hl, hc]; simp [List.replicate_succ], hb, hub⟩

theorem prefix_upper_bound_spec (p ub : List Nat)
    (h : prefix_upper_bound p = some ub) :
    ∃ q b m, p = q ++ b :: List.replicate m 255 ∧ b ≠ 255 ∧ ub = q ++ [b + 1] := by
  rw [prefix_upper_bound] at h
  split at h
  · cases h
  · obtain ⟨m, b, rest, hl, hb, hub⟩ := pub_rev_spec p.reverse ub h
    refine ⟨rest.reverse, b, m, ?_, hb, ?_⟩
    · have := congrArg List.reverse hl
      simp only [List.reverse_reverse, List.reverse_append, List.reverse_cons,
        List.reverse_replicate] at this
      rw [this]
      simp
    · rw [hub]
      simp

theorem pub_rev_none (l : List Nat) (h : prefix_upper_bound_rev l = none) :
    ∀ b ∈ l, b = 255 := by
  induction l with
  | nil => simp
  | cons c l' ih =>
    rw [prefix_upper_bound_rev] at h
    split at h
    · cases h
    · rename_i hc
      simp only [ne_eq, Decidable.not_not] at hc
      intro b hb
      rcases List.mem_cons.mp hb with h' | h'
      · rw [h', hc]
      · exact ih h b h'

theorem prefix_upper_bound_none (p : List Nat) (hne : p ≠ [])
    (h : prefix_upper_bound p = none) : ∀ b ∈ p, b = 255 := by
  rw [prefix_upper_bound] at h
  split at h
  · rename_i he
    exact absurd (by simpa using he) hne
  · intro b hb
    exact pub_rev_none p.reverse h b (by simpa using hb)

theorem lt_ub_of_prefix (p k ub : List Nat) (hub : prefix_upper_bound p = some ub)
    (h : p <+: k) : lexLt k ub = true := by
  obtain ⟨q, b, m, hp, hb, hu⟩ := prefix_upper_bound_spec p ub hub
  obtain ⟨r, rfl⟩ := h
  rw [hp, hu]
  rw [List.append_assoc]
  rw [lexLt_append_same]
  simp [lexLt]

theorem all_ff_prefix (m : Nat) (k : List Nat) (hk : bytesValid k)
    (hge : lexLt k (List.replicate m 255) = false) : List.replicate m 255 <+: k := by
  induction m generalizing k with
  | zero => simp
  | succ m ih =>
    cases k with
    | nil => simp [List.replicate_succ, lexLt] at hge
    | cons a k' =>
      have ha : a < 256 := hk a (List.mem_cons_self ..)
      rw [List.replicate_succ] at hge ⊢
      simp only [lexLt] at hge
      by_cases halt : a < 255
      · rw [if_pos halt] at hge; cases hge
      · have ha255 : a = 255 := by omega
        subst ha255
        rw [if_neg halt, if_neg (by omega)] at hge
        obtain ⟨r, hr⟩ := ih k' (fun b hb => hk b (List.mem_cons_of_mem _ hb)) hge
        exact ⟨r, by rw [List.cons_append, hr]⟩

theorem all_ff_ge_prefix (p k : List Nat) (hff : ∀ b ∈ p, b = 255)
    (hk : bytesValid k) (hge : lexLt k p = false) : p <+: k := by
  have hp : p = List.replicate p.length 255 := List.eq_replicate_of_mem hff
  rw [hp] at hge ⊢
  exact all_ff_prefix _ _ hk hge

theorem ge_ub_of_not_prefix (q kk : List Nat) (b m : Nat) (hb : b ≠ 255)
    (hk : bytesValid kk) (hnp : ¬ (q ++ b :: List.replicate m 255) <+: kk)
    (hge : lexLt kk (q ++ b :: List.replicate m 255) = false) :
    lexLt kk (q ++ [b + 1]) = false := by
  induction q generalizing kk with
  | nil =>
    cases kk with
    | nil => simp [lexLt] at hge
    | cons a k' =>
      simp only [List.nil_append] at hge hnp ⊢
      simp only [lexLt] at hge ⊢
      by_cases hab : a < b
      · rw [if_pos hab] at hge; cases hge
      · rw [if_neg hab] at hge
        by_cases hba : b < a
        · by_cases ha1 : a < b + 1
          · omega
          · rw [if_neg ha1]
            by_cases h1a : b + 1 < a
            · rw [if_pos h1a]
            · rw [if_neg h1a, lexLt_nil_right]
        · have hab' : a = b := by omega
          subst hab'
          rw [if_neg hba] at hge
          exfalso
          apply hnp
          obtain ⟨r, hr⟩ := all_ff_prefix m k'
            (fun x hx => hk x (List.mem_cons_of_mem _ hx)) hge
          exact ⟨r, by rw [List.cons_append, hr]⟩
  | cons c q' ih =>
    cases kk with
    | nil => simp [lexLt] at hge
    | cons a k' =>
      simp only [List.cons_append, lexLt] at hge hnp ⊢
      by_cases hac : a < c
      · rw [if_pos hac] at hge; cases hge
      · rw [if_neg hac] at hge ⊢
        by_cases hca : c < a
        · rw [if_pos hca]
        · rw [if_neg hca] at hge ⊢
          have hac' : a = c := by omega
          subst hac'
          apply ih k' (fun x hx => hk x (List.mem_cons_of_mem _ hx)) _ hge
          intro hpre
          exact hnp ((List.cons_prefix_cons).mpr ⟨rfl, hpre⟩)

theorem filter_append_sorted (r : List Nat × List Nat → List Nat × List Nat → Prop)
    (l : List (List Nat × List Nat)) (hp : l.Pairwise r)
    (A C : List Nat × List Nat → Bool)
    (hdisj : ∀ x ∈ l, ¬(A x = true ∧ C x = true))
    (horder : ∀ x ∈ l, ∀ y ∈ l, C x = true → A y = true → ¬ r x y) :
    l.filter A ++ l.filter C = l.filter (fun x => A x || C x) := by
  induction l with
  | nil => rfl
  | cons x rest ih =>
    rw [List.pairwise_cons] at hp
    have ihr := ih hp.2 (fun y hy => hdisj y (List.mem_cons_of_mem _ hy))
      (fun a ha y hy => horder a (List.mem_cons_of_mem _ ha) y (List.mem_cons_of_mem _ hy))
    by_cases hA : A x = true
    · have hC : C x = false := by
        by_contra hCx
        exact hdisj x (List.mem_cons_self ..) ⟨hA, by simpa using hCx⟩
      simp only [List.filter_cons, hA, hC, if_true, Bool.false_eq_true, if_false,
        Bool.true_or, List.cons_append]
      rw [ihr]
    · by_cases hC : C x = true
      · have hAnone : ∀ y ∈ rest, A y = false := by
          intro y hy
          by_contra hAy
          exact horder x (List.mem_cons_self ..) y (List.mem_cons_of_mem _ hy) hC
            (by simpa using hAy) (hp.1 y hy)
        have hfA : rest.filter A = [] := by
          rw [List.filter_eq_nil_iff]
          intro y hy
          simp [hAnone y hy]
        have hfor : rest.filter (fun x => A x || C x) = rest.filter C := by
          apply List.filter_congr
          intro y hy
          simp [hAnone y hy]
        simp only [List.filter_cons, hC, if_true, hfA,
          (show A x = false by simpa using hA), Bool.false_eq_true, if_false,
          Bool.false_or, List.nil_append]
        rw [hfor]
      · simp only [List.filter_cons, (show A x = false by simpa using hA),
          (show C x = false by simpa using hC), Bool.false_eq_true, if_false,
          Bool.false_or]
        exact ihr

/-- C3: `delete_recursive p` leaves exactly the entries whose keys do not
start with `p`: the empty prefix clears the map, an all-`0xFF` prefix removes
every key that is lexicographically at least `p` (each of which starts with
`p`), and when no key starts with `p` the entries map is unchanged. -/
theorem delete_recursive_spec (t : Unitrie) (p : List Nat)
    (hsorted : t.entries.Pairwise (fun a b => lexLt a.1 b.1 = true))
    (hkeys : ∀ e ∈ t.entries, bytesValid e.1) :
    (t.delete_recursive p).entries =
      t.entries.filter (fun e => !(p.isPrefixOf e.1)) ∧
    (p = [] → (t.delete_recursive p).entries = []) ∧
    ((∀ b ∈ p, b = 255) → ∀ k, bytesValid k → lexLt k p = false →
      p.isPrefixOf k = true) ∧
    ((∀ e ∈ t.entries, p.isPrefixOf e.1 = false) →
      (t.delete_recursive p).entries = t.entries) := by
  have hmain : (t.delete_recursive p).entries =
      t.entries.filter (fun e => !(p.isPrefixOf e.1)) := by
    rw [Unitrie.delete_recursive]
    by_cases hemp : t.entries.isEmpty
    · rw [if_pos hemp]
      rw [List.isEmpty_iff] at hemp
      rw [hemp]
      rfl
    · rw [if_neg hemp]
      by_cases hpe : p.isEmpty
      · rw [if_pos hpe]
        rw [List.isEmpty_iff] at hpe
        subst hpe
        have hnilpre : ∀ e : List Nat × List Nat, (!(List.isPrefixOf [] e.1)) = false := by
          intro e
          have h0 : List.isPrefixOf [] e.1 = true :=
            List.isPrefixOf_iff_prefix.mpr (List.nil_prefix ..)
          rw [h0]
          rfl
        rw [List.filter_eq_nil_iff.mpr (fun e _ => by simp [hnilpre e])]
      · rw [if_neg hpe]
        have hpne : p ≠ [] := by simpa [List.isEmpty_iff] using hpe
        cases hub : prefix_upper_bound p with
        | some ub =>
          dsimp only
          have hsuffix : (t.entries.filter (fun e => !lexLt e.1 p)).filter
              (fun e => !lexLt e.1 ub) =
              t.entries.filter (fun e => !lexLt e.1 ub && !lexLt e.1 p) :=
            List.filter_filter ..
          have happ := filter_append_sorted (fun a b => lexLt a.1 b.1 = true)
            t.entries hsorted (fun e => lexLt e.1 p)
            (fun e => !lexLt e.1 ub && !lexLt e.1 p) ?_ ?_
          · have hcong : t.entries.filter
                (fun e => lexLt e.1 p || (!lexLt e.1 ub && !lexLt e.1 p)) =
                t.entries.filter (fun e => !(p.isPrefixOf e.1)) := by
              apply List.filter_congr
              intro e he
              by_cases hpre : p <+: e.1
              · have h1 : lexLt e.1 p = false := lexLt_not_lt_of_prefix p e.1 hpre
                have h2 : lexLt e.1 ub = true := lt_ub_of_prefix p e.1 ub hub hpre
                have h3 : List.isPrefixOf p e.1 = true := by
                  rw [List.isPrefixOf_iff_prefix]
                  exact hpre
                simp [h1, h2, h3]
              · have h3 : List.isPrefixOf p e.1 = false := by
                  rw [Bool.eq_false_iff]
                  intro hc
                  exact hpre (List.isPrefixOf_iff_prefix.mp hc)
                by_cases h1 : lexLt e.1 p = true
                · simp [h1, h3]
                · obtain ⟨q, b, m, hpq, hb, hu⟩ := prefix_upper_bound_spec p ub hub
                  have h2 : lexLt e.1 ub = false := by
                    rw [hu]
                    apply ge_ub_of_not_prefix q e.1 b m hb (hkeys e he)
                    · rw [← hpq]; exact hpre
                    · rw [← hpq]; simpa using h1
                  simp [h2, h3, (show lexLt e.1 p = false by simpa using h1)]
            rw [hsuffix, happ, hcong]
            split
            · rename_i hwin
              rw [List.isEmpty_iff] at hwin
              rw [hwin, List.append_nil]
            · rfl
          · intro x hx hand
            obtain ⟨hA, hC⟩ := hand
            have hA' : lexLt x.1 p = true := hA
            have hC' : (!lexLt x.1 ub) = true ∧ (!lexLt x.1 p) = true := by
              rw [← Bool.and_eq_true]
              exact hC
            exact absurd hA' (by simpa using hC'.2)
          · intro x hx y hy hCx hAy
            intro hxy
            have hAy' : lexLt y.1 p = true := hAy
            have hCx' : (!lexLt x.1 ub) = true ∧ (!lexLt x.1 p) = true := by
              rw [← Bool.and_eq_true]
              exact hCx
            have := lexLt_trans x.1 y.1 p hxy hAy'
            exact absurd this (by simpa using hCx'.2)
        | none =>
          dsimp only
          have hff := prefix_upper_bound_none p hpne hub
          have hcong : t.entries.filter (fun e => lexLt e.1 p) =
              t.entries.filter (fun e => !(p.isPrefixOf e.1)) := by
            apply List.filter_congr
            intro e he
            by_cases h1 : lexLt e.1 p = true
            · have h3 : List.isPrefixOf p e.1 = false := by
                rw [Bool.eq_false_iff]
                intro hc
                have := lexLt_not_lt_of_prefix p e.1 (List.isPrefixOf_iff_prefix.mp hc)
                rw [this] at h1
                cases h1
              simp [h1, h3]
            · have hpre : p <+: e.1 :=
                all_ff_ge_prefix p e.1 hff (hkeys e he) (by simpa using h1)
              have h3 : List.isPrefixOf p e.1 = true := by
                rw [List.isPrefixOf_iff_prefix]; exact hpre
              simp [(show lexLt e.1 p = false by simpa using h1), h3]
          split
          · rename_i htail
            rw [List.isEmpty_iff] at htail
            rw [htail, List.append_nil, hcong]
          · rw [hcong]
  refine ⟨hmain, ?_, ?_, ?_⟩
  · intro hp0
    subst hp0
    rw [hmain]
    apply List.filter_eq_nil_iff.mpr
    intro e he
    have h0 : List.isPrefixOf [] e.1 = true :=
      List.isPrefixOf_iff_prefix.mpr (List.nil_prefix ..)
    simp [h0]
  · intro hff k hk hge
    rw [List.isPrefixOf_iff_prefix]
    exact all_ff_ge_prefix p k hff hk hge
  · intro hnone
    rw [hmain]
    apply List.filter_eq_self.mpr
    intro e he
    simp [hnone e he]

/-- Concrete three-entry trie used by the recursive-delete witness. -/
def trieDelW : Unitrie :=
  ⟨[([0xfe, 1], [3]), ([0xff, 0x10], [1]), ([0xff, 0x20], [2])], none, [], []⟩

theorem delete_recursive_spec_witness :
    trieDelW.entries.Pairwise (fun a b => lexLt a.1 b.1 = true) ∧
    (trieDelW.delete_recursive [0xff]).entries = [([0xfe, 1], [3])] := by
  have h := (delete_recursive_spec trieDelW [0xff] (by decide) (by decide)).1
  rw [h]
  exact ⟨by decide, rfl⟩

theorem foldl_min_le_init (l : List (List Nat)) (f : List Nat → Nat) (init : Nat) :
    l.foldl (fun acc s => min acc (f s)) init ≤ init := by
  induction l generalizing init with
  | nil => exact Nat.le_refl _
  | cons x rest ih =>
    rw [List.foldl_cons]
    exact Nat.le_trans (ih _) (Nat.min_le_left _ _)

theorem foldl_min_le_elem (l : List (List Nat)) (f : List Nat → Nat) (init : Nat)
    (x : List Nat) (hx : x ∈ l) :
    l.foldl (fun acc s => min acc (f s)) init ≤ f x := by
  induction l generalizing init with
  | nil => cases hx
  | cons y rest ih =>
    rw [List.foldl_cons]
    rcases List.mem_cons.mp hx with h | h
    · subst h
      exact Nat.le_trans (foldl_min_le_init _ _ _) (Nat.min_le_right _ _)
    · exact ih _ h

theorem foldl_min_attains (l : List (List Nat)) (f : List Nat → Nat) (init : Nat) :
    l.foldl (fun acc s => min acc (f s)) init = init ∨
      ∃ x ∈ l, l.foldl (fun acc s => min acc (f s)) init = f x := by
  induction l generalizing init with
  | nil => exact Or.inl rfl
  | cons y rest ih =>
    rw [List.foldl_cons]
    rcases ih (min init (f y)) with h | ⟨x, hx, hfx⟩
    · rcases Nat.le_total init (f y) with hle | hle
      · left
        rw [h, Nat.min_eq_left hle]
      · right
        refine ⟨y, List.mem_cons_self _ _, ?_⟩
        rw [h, Nat.min_eq_right hle]
    · exact Or.inr ⟨x, List.mem_cons_of_mem _ hx, hfx⟩

theorem lcp2_le_right (a b : List Nat) : lcp2 a b ≤ b.length := by
  induction a generalizing b with
  | nil => cases b <;> simp [lcp2]
  | cons x xs ih =>
    cases b with
    | nil => simp [lcp2]
    | cons y ys =>
      rw [lcp2]
      split
      · simpa using ih ys
      · simp

theorem lcp2_ne (a b : List Nat) (ha : lcp2 a b < a.length) (hb : lcp2 a b < b.length) :
    a.getD (lcp2 a b) 0 ≠ b.getD (lcp2 a b) 0 := by
  induction a generalizing b with
  | nil => simp [lcp2] at ha
  | cons x xs ih =>
    cases b with
    | nil => simp [lcp2] at hb
    | cons y ys =>
      rw [lcp2] at ha hb ⊢
      split at ha
      · rename_i hxy
        rw [if_pos hxy] at hb
        simp only [List.length_cons, Nat.add_lt_add_iff_right] at ha hb
        rw [if_pos hxy]
        simpa using ih ys ha hb
      · rename_i hxy
        rw [if_neg hxy]
        simpa using hxy

theorem lcsl_le (suffixes : List (List Nat)) (s : List Nat) (hs : s ∈ suffixes) :
    longest_common_suffix_length suffixes ≤ s.length := by
  cases suffixes with
  | nil => cases hs
  | cons first rest =>
    rw [longest_common_suffix_length]
    rcases List.mem_cons.mp hs with h | h
    · subst h
      exact foldl_min_le_init _ _ _
    · exact Nat.le_trans (foldl_min_le_elem _ _ _ _ h) (lcp2_le_right _ _)

theorem lcsl_maximal (first : List Nat) (rest : List (List Nat))
    (hfl : longest_common_suffix_length (first :: rest) < first.length)
    (hall : ∀ s ∈ rest, longest_common_suffix_length (first :: rest) < s.length) :
    ∃ s ∈ rest, s.getD (longest_common_suffix_length (first :: rest)) 0 ≠
      first.getD (longest_common_suffix_length (first :: rest)) 0 := by
  rcases foldl_min_attains rest (fun s => lcp2 first s) first.length with h | ⟨x, hx, hfx⟩
  · rw [longest_common_suffix_length] at hfl
    rw [h] at hfl
    exact absurd hfl (Nat.lt_irrefl _)
  · refine ⟨x, hx, ?_⟩
    have hl : longest_common_suffix_length (first :: rest) = lcp2 first x := by
      rw [longest_common_suffix_length]
      exact hfx
    rw [hl]
    exact (lcp2_ne first x (by rw [← hl]; exact hfl)
      (by rw [← hl]; exact hall x hx)).symm

mutual
/-- The single-collapse invariant: a node with no value has two non-empty
children, recursively at every embedded child. -/
def goodTree : TrieNode → Bool
  | .mk _ v l r => (v.has_value || (!l.is_empty && !r.is_empty)) && goodRef l && goodRef r
def goodRef : NodeReference → Bool
  | .empty => true
  | .embedded n => goodTree n
  | .hashed _ => true
end

theorem foldl_value_none (l : List (List Nat × List Nat)) (acc : Option (List Nat))
    (h : l.foldl (fun a e => if e.1.isEmpty then some e.2 else a) acc = none) :
    acc = none ∧ ∀ e ∈ l, e.1.isEmpty = false := by
  induction l generalizing acc with
  | nil => exact ⟨h, fun e he => absurd he (List.not_mem_nil e)⟩
  | cons x rest ih =>
    rw [List.foldl_cons] at h
    obtain ⟨hif, hrest⟩ := ih _ h
    by_cases hemp : x.1.isEmpty
    · rw [if_pos hemp] at hif
      cases hif
    · rw [if_neg hemp] at hif
      refine ⟨hif, ?_⟩
      intro e he
      rcases List.mem_cons.mp he with rfl | hmem
      · exact Bool.eq_false_iff.mpr hemp
      · exact hrest e hmem

theorem headD_drop_getD (l : List Nat) (n : Nat) (hn : n < l.length) (d d' : Nat) :
    (l.drop n).headD d = l.getD n d' := by
  rw [List.getD_eq_getElem l d' hn, List.drop_eq_getElem_cons hn]
  rfl

theorem build_node_child_keybits (entries : List (List Nat × List Nat))
    (p : List Nat × List Nat → Bool) (k : Nat) (e : List Nat × List Nat)
    (he : e ∈ ((entries.map (fun e => (e.1.drop k, e.2))).filter p).map
      (fun e => (e.1.tail, e.2)))
    (b : Nat) (hb : b ∈ e.1) : ∃ e' ∈ entries, b ∈ e'.1 := by
  simp only [List.mem_map, List.mem_filter] at he
  obtain ⟨a, ⟨⟨c, hc, hca⟩, _⟩, hae⟩ := he
  refine ⟨c, hc, ?_⟩
  rw [← hae] at hb
  have hb2 : b ∈ a.1 := List.mem_of_mem_tail hb
  rw [← hca] at hb2
  exact List.mem_of_mem_drop hb2

theorem bucket_ne_nil (entries : List (List Nat × List Nat)) (k : Nat)
    (p : List Nat × List Nat → Bool) (e : List Nat × List Nat) (he : e ∈ entries)
    (hp : p (e.1.drop k, e.2) = true) :
    ((entries.map (fun e => (e.1.drop k, e.2))).filter p).map
      (fun e => (e.1.tail, e.2)) ≠ [] := by
  intro h0
  have hm : (e.1.drop k, e.2) ∈ (entries.map (fun e => (e.1.drop k, e.2))).filter p :=
    List.mem_filter.mpr ⟨List.mem_map.mpr ⟨e, he, rfl⟩, hp⟩
  exact List.ne_nil_of_mem hm (List.map_eq_nil.mp h0)

theorem build_node_good (fuel : Nat) (entries : List (List Nat × List Nat))
    (hne : entries ≠ [])
    (hvals : ∀ e ∈ entries, e.2 ≠ [])
    (hbits : ∀ e ∈ entries, ∀ b ∈ e.1, b ≤ 1)
    (hfuel : sumKeyLen entries < fuel) :
    goodTree (build_node fuel entries) = true := by
  induction fuel generalizing entries with
  | zero => omega
  | succ fuel ih =>
    obtain ⟨e0, tail, rfl⟩ := List.exists_cons_of_ne_nil hne
    rw [build_node]
    rw [goodTree, Bool.and_eq_true, Bool.and_eq_true]
    refine ⟨⟨?_, ?_⟩, ?_⟩
    · cases hval : ((e0 :: tail).map (fun e => (e.1.drop
          (longest_common_suffix_length ((e0 :: tail).map Prod.fst)), e.2))).foldl
          (fun a e => if e.1.isEmpty then some e.2 else a) none with
      | some w =>
        rw [Bool.or_eq_true]
        left
        rcases foldl_value_pick _ _ _ hval with hmem | hacc
        · obtain ⟨e, he, hw⟩ := hmem
          simp only [List.mem_map] at he
          obtain ⟨e', he', he'e⟩ := he
          have hw0 : w ≠ [] := by
            rw [← hw, ← he'e]
            exact hvals e' he'
          cases w with
          | nil => exact absurd rfl hw0
          | cons a as => rfl
        · cases hacc
      | none =>
        have hrem := (foldl_value_none _ _ hval).2
        have hlen : ∀ e ∈ e0 :: tail,
            longest_common_suffix_length ((e0 :: tail).map Prod.fst) < e.1.length := by
          intro e he
          have hm := hrem _ (List.mem_map.mpr ⟨e, he, rfl⟩)
          by_contra hcon
          rw [List.drop_eq_nil_of_le (Nat.le_of_not_lt hcon)] at hm
          cases hm
        have hfl : longest_common_suffix_length (e0.1 :: tail.map Prod.fst) <
            e0.1.length := by
          rw [← List.map_cons]
          exact hlen e0 (List.mem_cons_self _ _)
        have hall : ∀ s ∈ tail.map Prod.fst,
            longest_common_suffix_length (e0.1 :: tail.map Prod.fst) < s.length := by
          intro s hs
          obtain ⟨e1, he1, rfl⟩ := List.mem_map.mp hs
          rw [← List.map_cons]
          exact hlen e1 (List.mem_cons_of_mem _ he1)
        obtain ⟨s, hs, hsne⟩ := lcsl_maximal e0.1 (tail.map Prod.fst) hfl hall
        obtain ⟨e1, he1, rfl⟩ := List.mem_map.mp hs
        have hl0 := hlen e0 (List.mem_cons_self _ _)
        have hl1 := hlen e1 (List.mem_cons_of_mem _ he1)
        rw [List.map_cons] at hl0 hl1
        have hb0 : e0.1.getD (longest_common_suffix_length
            (e0.1 :: tail.map Prod.fst)) 0 ≤ 1 := by
          rw [List.getD_eq_getElem _ _ hl0]
          exact hbits e0 (List.mem_cons_self _ _) _ (List.getElem_mem _)
        have hb1 : e1.1.getD (longest_common_suffix_length
            (e0.1 :: tail.map Prod.fst)) 0 ≤ 1 := by
          rw [List.getD_eq_getElem _ _ hl1]
          exact hbits e1 (List.mem_cons_of_mem _ he1) _ (List.getElem_mem _)
        have hcases : (e0.1.getD (longest_common_suffix_length
              (e0.1 :: tail.map Prod.fst)) 0 = 0 ∧
            e1.1.getD (longest_common_suffix_length
              (e0.1 :: tail.map Prod.fst)) 0 = 1) ∨
            (e0.1.getD (longest_common_suffix_length
              (e0.1 :: tail.map Prod.fst)) 0 = 1 ∧
            e1.1.getD (longest_common_suffix_length
              (e0.1 :: tail.map Prod.fst)) 0 = 0) := by
          omega
        have hpred : ∀ e ∈ e0 :: tail, ∀ c : Nat,
            e.1.getD (longest_common_suffix_length (e0.1 :: tail.map Prod.fst)) 0 = c →
            ((fun e => !e.1.isEmpty && (e.1.headD 1 == c))
              (e.1.drop (longest_common_suffix_length ((e0 :: tail).map Prod.fst)),
                e.2)) = true := by
          intro e he c hc
          have hle := hlen e he
          rw [List.map_cons] at hle
          have hdropne : e.1.drop (longest_common_suffix_length
              (e0.1 :: tail.map Prod.fst)) ≠ [] := by
            intro h0
            have := congrArg List.length h0
            rw [List.length_drop] at this
            simp only [List.length_nil] at this
            omega
          rw [List.map_cons]
          obtain ⟨a, as, hcons⟩ := List.exists_cons_of_ne_nil hdropne
          have hhead := headD_drop_getD e.1
            (longest_common_suffix_length (e0.1 :: tail.map Prod.fst)) hle 1 0
          rw [hcons] at hhead
          simp only [List.headD_cons] at hhead
          simp only [hcons, List.isEmpty_cons, Bool.not_false, Bool.true_and,
            List.headD_cons, hhead, hc, beq_self_eq_true]
        rw [Bool.or_eq_true]
        right
        rcases hcases with ⟨h0, h1⟩ | ⟨h0, h1⟩
        · have hL := bucket_ne_nil (e0 :: tail)
            (longest_common_suffix_length ((e0 :: tail).map Prod.fst))
            (fun e => !e.1.isEmpty && (e.1.headD 1 == 0)) e0
            (List.mem_cons_self _ _) (hpred e0 (List.mem_cons_self _ _) 0 h0)
          have hR : ((fun e => !e.1.isEmpty && !(e.1.headD 1 == 0))
              (e1.1.drop (longest_common_suffix_length ((e0 :: tail).map Prod.fst)),
                e1.2)) = true := by
            have := hpred e1 (List.mem_cons_of_mem _ he1) 1 h1
            simp only [Bool.and_eq_true] at this ⊢
            refine ⟨this.1, ?_⟩
            simp only [beq_iff_eq] at this ⊢
            rw [this.2]
            decide
          have hRne := bucket_ne_nil (e0 :: tail)
            (longest_common_suffix_length ((e0 :: tail).map Prod.fst))
            (fun e => !e.1.isEmpty && !(e.1.headD 1 == 0)) e1
            (List.mem_cons_of_mem _ he1) hR
          rw [if_neg hL, if_neg hRne]
          rfl
        · have hL := bucket_ne_nil (e0 :: tail)
            (longest_common_suffix_length ((e0 :: tail).map Prod.fst))
            (fun e => !e.1.isEmpty && (e.1.headD 1 == 0)) e1
            (List.mem_cons_of_mem _ he1) (hpred e1 (List.mem_cons_of_mem _ he1) 0 h1)
          have hR : ((fun e => !e.1.isEmpty && !(e.1.headD 1 == 0))
              (e0.1.drop (longest_common_suffix_length ((e0 :: tail).map Prod.fst)),
                e0.2)) = true := by
            have := hpred e0 (List.mem_cons_self _ _) 1 h0
            simp only [Bool.and_eq_true] at this ⊢
            refine ⟨this.1, ?_⟩
            simp only [beq_iff_eq] at this ⊢
            rw [this.2]
            decide
          have hRne := bucket_ne_nil (e0 :: tail)
            (longest_common_suffix_length ((e0 :: tail).map Prod.fst))
            (fun e => !e.1.isEmpty && !(e.1.headD 1 == 0)) e0
            (List.mem_cons_self _ _) hR
          rw [if_neg hL, if_neg hRne]
          rfl
    · split
      · rfl
      · rename_i hB
        rw [goodRef]
        refine ih _ hB ?_ ?_ ?_
        · intro e he
          obtain ⟨e', he', hv⟩ := build_node_child_values (e0 :: tail) _ _ e he
          rw [← hv]
          exact hvals e' he'
        · intro e he b hb
          obtain ⟨e', he', hb'⟩ := build_node_child_keybits (e0 :: tail) _ _ e he b hb
          exact hbits e' he' b hb'
        · have h1 := sumKeyLen_filter_tail_lt
            (fun e => !e.1.isEmpty && (e.1.headD 1 == 0))
            (by
              intro e hpe hnil
              have hpe2 : (!e.1.isEmpty && (e.1.headD 1 == 0)) = true := hpe
              rw [hnil] at hpe2
              simp at hpe2)
            ((e0 :: tail).map (fun e => (e.1.drop
              (longest_common_suffix_length ((e0 :: tail).map Prod.fst)), e.2))) hB
          have h2 := sumKeyLen_map_drop_le
            (longest_common_suffix_length ((e0 :: tail).map Prod.fst)) (e0 :: tail)
          omega
    · split
      · rfl
      · rename_i hB
        rw [goodRef]
        refine ih _ hB ?_ ?_ ?_
        · intro e he
          obtain ⟨e', he', hv⟩ := build_node_child_values (e0 :: tail) _ _ e he
          rw [← hv]
          exact hvals e' he'
        · intro e he b hb
          obtain ⟨e', he', hb'⟩ := build_node_child_keybits (e0 :: tail) _ _ e he b hb
          exact hbits e' he' b hb'
        · have h1 := sumKeyLen_filter_tail_lt
            (fun e => !e.1.isEmpty && !(e.1.headD 1 == 0))
            (by
              intro e hpe hnil
              have hpe2 : (!e.1.isEmpty && !(e.1.headD 1 == 0)) = true := hpe
              rw [hnil] at hpe2
              simp at hpe2)
            ((e0 :: tail).map (fun e => (e.1.drop
              (longest_common_suffix_length ((e0 :: tail).map Prod.fst)), e.2))) hB
          have h2 := sumKeyLen_map_drop_le
            (longest_common_suffix_length ((e0 :: tail).map Prod.fst)) (e0 :: tail)
          omega

/-- **C9.** Every node of the tree produced by materializing a non-empty
entries map (with non-empty values) satisfies the single-collapse invariant:
a node with no value has two non-empty children; no node of the
materialized tree has no value and fewer than two non-empty children. -/
theorem build_root_single_collapse (entries : List (List Nat × List Nat))
    (hne : entries ≠ [])
    (hvals : ∀ e ∈ entries, e.2 ≠ []) :
    ∃ rn, build_root_node entries = some rn ∧ goodTree rn = true := by
  rw [build_root_node]
  rw [if_neg (by simp only [List.isEmpty_iff]; exact hne)]
  refine ⟨_, rfl, ?_⟩
  apply build_node_good
  · simp only [ne_eq, List.map_eq_nil]
    exact hne
  · intro e he
    simp only [List.mem_map] at he
    obtain ⟨e', he', rfl⟩ := he
    exact hvals e' he'
  · intro e he b hb
    simp only [List.mem_map] at he
    obtain ⟨e', he', rfl⟩ := he
    simp only [sp_decode, List.mem_map] at hb
    obtain ⟨idx, _, rfl⟩ := hb
    exact Nat.and_le_right
  · exact Nat.lt_succ_self _

theorem build_root_single_collapse_witness :
    ∃ rn, build_root_node [([0], [1]), ([1], [2])] = some rn ∧ goodTree rn = true :=
  build_root_single_collapse [([0], [1]), ([1], [2])] (by decide) (by decide)

theorem hset_insert_superset (h : List Nat) (s : List (List Nat)) (x : List Nat)
    (hx : x ∈ s) : x ∈ (hset_insert h s).2 := by
  rw [hset_insert]
  split
  · exact hx
  · exact List.mem_cons_of_mem _ hx

theorem hset_insert_sub (h : List Nat) (s : List (List Nat)) (b : Bool)
    (s' : List (List Nat)) (he : hset_insert h s = (b, s')) : ∀ x ∈ s, x ∈ s' := by
  rw [hset_insert] at he
  split at he
  · injection he with h1 h2
    subst h2
    exact fun x hx => hx
  · injection he with h1 h2
    subst h2
    exact fun x hx => List.mem_cons_of_mem _ hx

theorem hset_insert_self (h : List Nat) (s : List (List Nat)) :
    h ∈ (hset_insert h s).2 := by
  rw [hset_insert]
  split
  · assumption
  · exact List.mem_cons_self _ _

theorem hset_insert_of_mem (h : List Nat) (s : List (List Nat)) (hm : h ∈ s) :
    hset_insert h s = (false, s) := by
  rw [hset_insert, if_pos hm]

mutual
theorem persist_node_mono (node : TrieNode) (store : Store) (sn sv : List (List Nat))
    (is_root : Bool) (md : NodeMetadata) (stats : SaveStats) (store' : Store)
    (sn' sv' : List (List Nat))
    (hp : persist_node_recursive node store sn sv is_root =
      some (md, stats, store', sn', sv')) :
    (∀ h ∈ sn, h ∈ sn') ∧ (∀ h ∈ sv, h ∈ sv') := by
  match node with
  | .mk sp v l r =>
    rw [persist_node_recursive] at hp
    cases hpl : persist_child_reference l store sn sv with
    | none => rw [hpl] at hp; cases hp
    | some ql =>
      rw [hpl] at hp
      obtain ⟨le, ls, lstats, lstore, lsn, lsv⟩ := ql
      have ihl := persist_child_mono l store sn sv le ls lstats lstore lsn lsv hpl
      dsimp only at hp
      cases hpr : persist_child_reference r lstore lsn lsv with
      | none => rw [hpr] at hp; cases hp
      | some qr =>
        rw [hpr] at hp
        obtain ⟨re, rs, rstats, rstore, rsn, rsv⟩ := qr
        have ihr := persist_child_mono r lstore lsn lsv re rs rstats rstore rsn rsv hpr
        dsimp only at hp
        cases henc : encode_node (TrieNode.mk sp v l r) le re
            (if (TrieNode.mk sp v l r).is_terminal then none else some (ls + rs)) with
        | none => rw [henc] at hp; cases hp
        | some serialized =>
          rw [henc] at hp
          dsimp only at hp
          injection hp with h0
          injection h0 with hmd h1
          injection h1 with hstats h2
          injection h2 with hstore h3
          injection h3 with hsn1 hsv1
          subst hsn1
          subst hsv1
          have hA : ∀ h ∈ sn, h ∈ rsn := fun h hh => ihr.1 h (ihl.1 h hh)
          have hB : ∀ h ∈ sv, h ∈ rsv := fun h hh => ihr.2 h (ihl.2 h hh)
          constructor
          · intro h hh
            repeat' split
            all_goals
              first
              | exact hA h hh
              | exact hset_insert_superset _ _ _ (hA h hh)
              | exact hset_insert_superset _ _ _ (hset_insert_superset _ _ _ (hA h hh))
              | (rename_i heq
                 exact hset_insert_sub _ _ _ _ heq h (hA h hh))
          · intro h hh
            repeat' split
            all_goals
              first
              | exact hB h hh
              | exact hset_insert_superset _ _ _ (hB h hh)
              | (rename_i heq
                 exact hset_insert_sub _ _ _ _ heq h (hB h hh))

theorem persist_child_mono (reference : NodeReference) (store : Store)
    (sn sv : List (List Nat)) (enc : ChildEncoding) (sz : Nat) (stats : SaveStats)
    (store' : Store) (sn' sv' : List (List Nat))
    (hp : persist_child_reference reference store sn sv =
      some (enc, sz, stats, store', sn', sv')) :
    (∀ h ∈ sn, h ∈ sn') ∧ (∀ h ∈ sv, h ∈ sv') := by
  match reference with
  | .empty =>
    rw [persist_child_reference] at hp
    injection hp with h0
    injection h0 with h1 h2
    injection h2 with h3 h4
    injection h4 with h5 h6
    injection h6 with h7 h8
    injection h8 with h9 h10
    subst h9
    subst h10
    exact ⟨fun h hh => hh, fun h hh => hh⟩
  | .embedded child =>
    rw [persist_child_reference] at hp
    cases hpc : persist_node_recursive child store sn sv false with
    | none => rw [hpc] at hp; cases hp
    | some qc =>
      rw [hpc] at hp
      obtain ⟨cmd, cstats, cstore, csn, csv⟩ := qc
      have ihc := persist_node_mono child store sn sv false cmd cstats cstore csn csv hpc
      dsimp only at hp
      split at hp <;>
        (injection hp with h0; injection h0 with h1 h2; injection h2 with h3 h4;
         injection h4 with h5 h6; injection h6 with h7 h8; injection h8 with h9 h10;
         subst h9; subst h10; exact ihc)
  | .hashed hh =>
    rw [persist_child_reference] at hp
    injection hp with h0
    injection h0 with h1 h2
    injection h2 with h3 h4
    injection h4 with h5 h6
    injection h6 with h7 h8
    injection h8 with h9 h10
    subst h9
    subst h10
    exact ⟨fun h hm => hset_insert_superset _ _ _ hm, fun h hm => hm⟩
end

theorem hset_insert_self_eq (h : List Nat) (s : List (List Nat)) (b : Bool)
    (s' : List (List Nat)) (he : hset_insert h s = (b, s')) : h ∈ s' := by
  have h2 := congrArg Prod.snd he
  dsimp only at h2
  rw [← h2]
  exact hset_insert_self h s

mutual
theorem persist_node_idem (node : TrieNode) (store : Store) (sn sv : List (List Nat))
    (ir1 : Bool) (md : NodeMetadata) (stats : SaveStats) (store1 : Store)
    (sn1 sv1 : List (List Nat))
    (hp : persist_node_recursive node store sn sv ir1 =
      some (md, stats, store1, sn1, sv1))
    (store2 : Store) (SN SV : List (List Nat))
    (hSN : ∀ h ∈ sn1, h ∈ SN) (hSV : ∀ h ∈ sv1, h ∈ SV)
    (ir2 : Bool) (hir : ir2 = true → ir1 = true) :
    ∃ nv, persist_node_recursive node store2 SN SV ir2 =
      some (md, ⟨nv, if ir2 then 1 else 0, 0⟩,
        if ir2 then store2.save_raw_node md.hash md.serialized else store2, SN, SV) := by
  match node with
  | .mk sp v l r =>
    rw [persist_node_recursive] at hp
    cases hpl : persist_child_reference l store sn sv with
    | none => rw [hpl] at hp; cases hp
    | some ql =>
      rw [hpl] at hp
      obtain ⟨le, ls, lstats, lstore, lsn, lsv⟩ := ql
      dsimp only at hp
      cases hpr : persist_child_reference r lstore lsn lsv with
      | none => rw [hpr] at hp; cases hp
      | some qr =>
        rw [hpr] at hp
        obtain ⟨re, rs, rstats, rstore, rsn, rsv⟩ := qr
        dsimp only at hp
        cases henc : encode_node (TrieNode.mk sp v l r) le re
            (if (TrieNode.mk sp v l r).is_terminal then none else some (ls + rs)) with
        | none => rw [henc] at hp; cases hp
        | some serialized =>
          rw [henc] at hp
          dsimp only at hp
          injection hp with h0
          injection h0 with hmd h1
          injection h1 with hstats h2
          injection h2 with hstore h3
          injection h3 with hsn1 hsv1
          subst hmd
          have hA : ∀ h ∈ rsn, h ∈ sn1 := by
            intro h hh
            rw [← hsn1]
            repeat' split
            all_goals
              first
              | exact hh
              | exact hset_insert_superset _ _ _ hh
              | exact hset_insert_superset _ _ _ (hset_insert_superset _ _ _ hh)
              | (rename_i heq
                 exact hset_insert_sub _ _ _ _ heq h hh)
          have hB : ∀ h ∈ rsv, h ∈ sv1 := by
            intro h hh
            rw [← hsv1]
            repeat' split
            all_goals
              first
              | exact hh
              | exact hset_insert_superset _ _ _ hh
              | (rename_i heq
                 exact hset_insert_sub _ _ _ _ heq h hh)
          have hhash : embeddableB (TrieNode.mk sp v l r) serialized = false ∨
              ir1 = true → keccak256 serialized ∈ sn1 := by
            intro hc
            rw [← hsn1]
            have hcond : (ir1 || !embeddableB (TrieNode.mk sp v l r) serialized) = true := by
              rcases hc with hc | hc
              · rw [hc]
                simp
              · rw [hc]
                simp
            rw [if_pos hcond]
            repeat' split
            all_goals
              first
              | exact hset_insert_self _ _
              | exact hset_insert_superset _ _ _ (hset_insert_self _ _)
              | (rename_i heq
                 exact hset_insert_self_eq _ _ _ _ heq)
              | (rename_i heq
                 exact hset_insert_superset _ _ _ (hset_insert_self_eq _ _ _ _ heq))
          have hmr := persist_child_mono r lstore lsn lsv re rs rstats rstore rsn rsv hpr
          have hSNl : ∀ h ∈ lsn, h ∈ SN := fun h hh => hSN h (hA h (hmr.1 h hh))
          have hSVl : ∀ h ∈ lsv, h ∈ SV := fun h hh => hSV h (hB h (hmr.2 h hh))
          have hSNr : ∀ h ∈ rsn, h ∈ SN := fun h hh => hSN h (hA h hh)
          have hSVr : ∀ h ∈ rsv, h ∈ SV := fun h hh => hSV h (hB h hh)
          obtain ⟨lnv, ihl⟩ := persist_child_idem l store sn sv le ls lstats lstore
            lsn lsv hpl store2 SN SV hSNl hSVl
          obtain ⟨rnv, ihr⟩ := persist_child_idem r lstore lsn lsv re rs rstats rstore
            rsn rsv hpr store2 SN SV hSNr hSVr
          refine ⟨1 + lnv + rnv, ?_⟩
          rw [persist_node_recursive, ihl]
          dsimp only
          rw [ihr]
          dsimp only
          rw [henc]
          dsimp only [TrieNode.value]
          cases hv : v.inline_bytes with
          | none =>
            dsimp only
            cases hemb : embeddableB (TrieNode.mk sp v l r) serialized with
            | true =>
              cases ir2 with
              | false => rfl
              | true =>
                rw [hset_insert_of_mem _ _ (hSN _ (hhash (Or.inr (hir rfl))))]
                dsimp only
                rw [hset_insert_of_mem _ _ (hSN _ (hhash (Or.inr (hir rfl))))]
                rfl
            | false =>
              cases ir2 with
              | false =>
                rw [hset_insert_of_mem _ _ (hSN _ (hhash (Or.inl hemb)))]
                rfl
              | true =>
                rw [hset_insert_of_mem _ _ (hSN _ (hhash (Or.inl hemb)))]
                dsimp only
                rw [hset_insert_of_mem _ _ (hSN _ (hhash (Or.inl hemb)))]
                rfl
          | some iv =>
            dsimp only
            by_cases hlen : LONG_VALUE_THRESHOLD < iv.length
            · rw [if_pos hlen]
              have hvh : keccak256 iv ∈ sv1 := by
                rw [← hsv1]
                dsimp only [TrieNode.value]
                rw [hv]
                dsimp only
                rw [if_pos hlen]
                repeat' split
                all_goals
                  first
                  | exact hset_insert_self _ _
                  | (rename_i heq
                     exact hset_insert_self_eq _ _ _ _ heq)
              rw [hset_insert_of_mem _ _ (hSV _ hvh)]
              dsimp only
              cases hemb : embeddableB (TrieNode.mk sp v l r) serialized with
              | true =>
                cases ir2 with
                | false => rfl
                | true =>
                  rw [hset_insert_of_mem _ _ (hSN _ (hhash (Or.inr (hir rfl))))]
                  dsimp only
                  rw [hset_insert_of_mem _ _ (hSN _ (hhash (Or.inr (hir rfl))))]
                  rfl
              | false =>
                cases ir2 with
                | false =>
                  rw [hset_insert_of_mem _ _ (hSN _ (hhash (Or.inl hemb)))]
                  rfl
                | true =>
                  rw [hset_insert_of_mem _ _ (hSN _ (hhash (Or.inl hemb)))]
                  dsimp only
                  rw [hset_insert_of_mem _ _ (hSN _ (hhash (Or.inl hemb)))]
                  rfl
            · rw [if_neg hlen]
              cases hemb : embeddableB (TrieNode.mk sp v l r) serialized with
              | true =>
                cases ir2 with
                | false => rfl
                | true =>
                  rw [hset_insert_of_mem _ _ (hSN _ (hhash (Or.inr (hir rfl))))]
                  dsimp only
                  rw [hset_insert_of_mem _ _ (hSN _ (hhash (Or.inr (hir rfl))))]
                  rfl
              | false =>
                cases ir2 with
                | false =>
                  rw [hset_insert_of_mem _ _ (hSN _ (hhash (Or.inl hemb)))]
                  rfl
                | true =>
                  rw [hset_insert_of_mem _ _ (hSN _ (hhash (Or.inl hemb)))]
                  dsimp only
                  rw [hset_insert_of_mem _ _ (hSN _ (hhash (Or.inl hemb)))]
                  rfl

theorem persist_child_idem (reference : NodeReference) (store : Store)
    (sn sv : List (List Nat)) (enc : ChildEncoding) (sz : Nat) (stats : SaveStats)
    (store1 : Store) (sn1 sv1 : List (List Nat))
    (hp : persist_child_reference reference store sn sv =
      some (enc, sz, stats, store1, sn1, sv1))
    (store2 : Store) (SN SV : List (List Nat))
    (hSN : ∀ h ∈ sn1, h ∈ SN) (hSV : ∀ h ∈ sv1, h ∈ SV) :
    ∃ nv, persist_child_reference reference store2 SN SV =
      some (enc, sz, ⟨nv, 0, 0⟩, store2, SN, SV) := by
  match reference with
  | .empty =>
    rw [persist_child_reference] at hp
    injection hp with h0
    injection h0 with h1 h2
    injection h2 with h3 h4
    subst h1
    subst h3
    exact ⟨0, rfl⟩
  | .embedded child =>
    rw [persist_child_reference] at hp
    cases hpc : persist_node_recursive child store sn sv false with
    | none => rw [hpc] at hp; cases hp
    | some qc =>
      rw [hpc] at hp
      obtain ⟨cmd, cstats, cstore, csn, csv⟩ := qc
      dsimp only at hp
      split at hp
      · injection hp with h0
        injection h0 with h1 h2
        injection h2 with h3 h4
        injection h4 with h5 h6
        injection h6 with h7 h8
        injection h8 with h9 h10
        subst h1
        subst h3
        subst h9
        subst h10
        rename_i hemb
        obtain ⟨nv, ihc⟩ := persist_node_idem child store sn sv false cmd cstats
          cstore csn csv hpc store2 SN SV hSN hSV false (fun h => h)
        simp only [if_neg Bool.false_ne_true] at ihc
        refine ⟨nv, ?_⟩
        rw [persist_child_reference, ihc]
        dsimp only
        rw [if_pos hemb]
      · injection hp with h0
        injection h0 with h1 h2
        injection h2 with h3 h4
        injection h4 with h5 h6
        injection h6 with h7 h8
        injection h8 with h9 h10
        subst h1
        subst h3
        subst h9
        subst h10
        rename_i hemb
        obtain ⟨nv, ihc⟩ := persist_node_idem child store sn sv false cmd cstats
          cstore csn csv hpc store2 SN SV hSN hSV false (fun h => h)
        simp only [if_neg Bool.false_ne_true] at ihc
        refine ⟨nv, ?_⟩
        rw [persist_child_reference, ihc]
        dsimp only
        rw [if_neg hemb]
  | .hashed hh =>
    rw [persist_child_reference] at hp
    injection hp with h0
    injection h0 with h1 h2
    injection h2 with h3 h4
    injection h4 with h5 h6
    injection h6 with h7 h8
    injection h8 with h9 h10
    subst h1
    subst h3
    have hmem : hh ∈ SN := hSN hh (h9 ▸ hset_insert_self hh sn)
    refine ⟨0, ?_⟩
    rw [persist_child_reference, hset_insert_of_mem _ _ hmem]
    rfl
end

theorem store_lookup_dup (k v : List Nat) (l : List (List Nat × List Nat))
    (hh : l.head? = some (k, v)) :
    ∀ h, store_lookup ((k, v) :: l) h = store_lookup l h := by
  cases l with
  | nil => cases hh
  | cons p rest =>
    injection hh with hp
    subst hp
    intro h
    by_cases hk : k = h
    · rw [store_lookup, if_pos hk, store_lookup, if_pos hk]
    · rw [store_lookup, if_neg hk]

theorem materialize_entries (t tm : Unitrie) (m : MaterializedTrie)
    (hm : t.materialize = some (tm, m)) : tm.entries = t.entries := by
  rw [Unitrie.materialize] at hm
  cases hmat : t.materialized with
  | some m0 =>
    rw [hmat] at hm
    injection hm with h0
    injection h0 with h1 h2
    rw [← h1]
  | none =>
    rw [hmat] at hm
    dsimp only at hm
    cases hb : build_root_node t.entries with
    | none =>
      rw [hb] at hm
      injection hm with h0
      injection h0 with h1 h2
      rw [← h1]
    | some rn =>
      rw [hb] at hm
      dsimp only at hm
      cases hc : compute_node_metadata rn with
      | none => rw [hc] at hm; cases hm
      | some md =>
        rw [hc] at hm
        injection hm with h0
        injection h0 with h1 h2
        rw [← h1]

theorem persist_node_root_head (node : TrieNode) (store : Store)
    (sn sv : List (List Nat)) (md : NodeMetadata) (stats : SaveStats)
    (store1 : Store) (sn1 sv1 : List (List Nat))
    (hp : persist_node_recursive node store sn sv true =
      some (md, stats, store1, sn1, sv1)) :
    store1.nodes.head? = some (md.hash, md.serialized) := by
  match node with
  | .mk sp v l r =>
    rw [persist_node_recursive] at hp
    cases hpl : persist_child_reference l store sn sv with
    | none => rw [hpl] at hp; cases hp
    | some ql =>
      rw [hpl] at hp
      obtain ⟨le, ls, lstats, lstore, lsn, lsv⟩ := ql
      dsimp only at hp
      cases hpr : persist_child_reference r lstore lsn lsv with
      | none => rw [hpr] at hp; cases hp
      | some qr =>
        rw [hpr] at hp
        obtain ⟨re, rs, rstats, rstore, rsn, rsv⟩ := qr
        dsimp only at hp
        cases henc : encode_node (TrieNode.mk sp v l r) le re
            (if (TrieNode.mk sp v l r).is_terminal then none else some (ls + rs)) with
        | none => rw [henc] at hp; cases hp
        | some serialized =>
          rw [henc] at hp
          dsimp only at hp
          injection hp with h0
          injection h0 with hmd h1
          injection h1 with hstats h2
          injection h2 with hstore h3
          subst hmd
          subst hstore
          simp only [Bool.true_or, eq_self_iff_true, if_true]
          simp [Store.save_raw_node]

/-- **C4.** A second `save_to_store_with_stats` on the unchanged trie performs
exactly one node write — the root blob, the same bytes under the same hash as
the first save (which sits at the head of the store's node list) — and no
value writes, so the store contents after the second save are lookup-equal to
the contents after the first save. -/
theorem save_idempotent_second_save (t : Unitrie) (store : Store)
    (t1 : Unitrie) (s1 : Store) (st1 : SaveStats)
    (hne : t.entries.isEmpty = false)
    (h1 : t.save_to_store_with_stats store = some (t1, s1, st1)) :
    ∃ t2 nv hash ser,
      t1.save_to_store_with_stats s1 =
        some (t2, s1.save_raw_node hash ser, ⟨nv, 1, 0⟩) ∧
      s1.nodes.head? = some (hash, ser) ∧
      (∀ h, store_lookup (s1.save_raw_node hash ser).nodes h =
        store_lookup s1.nodes h) ∧
      (s1.save_raw_node hash ser).values = s1.values := by
  rw [Unitrie.save_to_store_with_stats] at h1
  rw [if_neg (by simp [hne])] at h1
  cases hm : t.materialize with
  | none => rw [hm] at h1; cases h1
  | some q =>
    rw [hm] at h1
    obtain ⟨tm, m⟩ := q
    dsimp only at h1
    cases hroot : m.root_node with
    | none => rw [hroot] at h1; cases h1
    | some root_node =>
      rw [hroot] at h1
      dsimp only at h1
      cases hper : persist_node_recursive root_node store tm.persisted_node_hashes
          tm.persisted_value_hashes true with
      | none => rw [hper] at h1; cases h1
      | some pq =>
        rw [hper] at h1
        obtain ⟨rmd, sstats, store', sn', sv'⟩ := pq
        dsimp only at h1
        injection h1 with h0
        injection h0 with ht1 h2
        injection h2 with hs1 hst1
        subst ht1
        subst hs1
        have hentries : tm.entries = t.entries := materialize_entries t tm m hm
        obtain ⟨nv, heq⟩ := persist_node_idem root_node store tm.persisted_node_hashes
          tm.persisted_value_hashes true rmd sstats store' sn' sv' hper store' sn' sv'
          (fun h hh => hh) (fun h hh => hh) true (fun h => h)
        have hhead := persist_node_root_head root_node store tm.persisted_node_hashes
          tm.persisted_value_hashes rmd sstats store' sn' sv' hper
        refine ⟨⟨tm.entries, some ⟨some root_node, rmd.hash⟩, sn', sv'⟩, nv,
          rmd.hash, rmd.serialized, ?_, hhead, store_lookup_dup _ _ _ hhead, rfl⟩
        rw [Unitrie.save_to_store_with_stats]
        rw [if_neg (by simp only [hentries]; simp [hne])]
        dsimp only [Unitrie.materialize]
        rw [heq]
        rfl

def trieW5 : Unitrie := ⟨[([0], [5])], none, [], []⟩

def saveW5res : Unitrie × Store × SaveStats :=
  (trieW5.save_to_store_with_stats Store.emptyStore).getD
    (trieW5, Store.emptyStore, ⟨0, 0, 0⟩)

theorem save_idempotent_second_save_witness :
    ∃ t2 nv hash ser,
      saveW5res.1.save_to_store_with_stats saveW5res.2.1 =
        some (t2, (saveW5res.2.1).save_raw_node hash ser, ⟨nv, 1, 0⟩) ∧
      (saveW5res.2.1).nodes.head? = some (hash, ser) ∧
      (∀ h, store_lookup ((saveW5res.2.1).save_raw_node hash ser).nodes h =
        store_lookup (saveW5res.2.1).nodes h) ∧
      ((saveW5res.2.1).save_raw_node hash ser).values = (saveW5res.2.1).values :=
  save_idempotent_second_save trieW5 Store.emptyStore saveW5res.1 saveW5res.2.1
    saveW5res.2.2 rfl rfl

theorem u24_assemble (n : Nat) (hn : n ≤ 0xffffff) :
    ((((n >>> 16) &&& 0xff) <<< 16) ||| (((n >>> 8) &&& 0xff) <<< 8)) ||| (n &&& 0xff)
      = n := by
  apply Nat.eq_of_testBit_eq
  intro i
  have h255 : (0xff : Nat) = 2 ^ 8 - 1 := by norm_num
  simp only [Nat.testBit_or, Nat.testBit_shiftLeft, Nat.testBit_and,
    Nat.testBit_shiftRight, h255, Nat.testBit_two_pow_sub_one]
  by_cases h1 : i < 8
  · simp only [show ¬(i ≥ 16) from by omega, show ¬(i ≥ 8) from by omega, decide_eq_true_eq,
      decide_eq_false_iff_not, not_lt]
    simp [h1, show ¬(16 ≤ i) from by omega, show ¬(8 ≤ i) from by omega]
  · by_cases h2 : i < 16
    · simp only [show ¬(i ≥ 16) from by omega, show (i ≥ 8) from by omega]
      simp [show ¬(16 ≤ i) from by omega, show (8 ≤ i) from by omega,
        show i - 8 < 8 from by omega, show ¬(i < 8) from h1,
        show 8 + (i - 8) = i from by omega]
    · by_cases h3 : i < 24
      · simp [show (16 ≤ i) from by omega, show (8 ≤ i) from by omega,
          show i - 16 < 8 from by omega, show ¬(i - 8 < 8) from by omega,
          show ¬(i < 8) from h1, show 16 + (i - 16) = i from by omega]
      · have hhi : n.testBit i = false :=
          Nat.testBit_lt_two_pow (by calc n < 2 ^ 24 := by omega
                                       _ ≤ 2 ^ i := Nat.pow_le_pow_right (by omega) (by omega))
        simp [show (16 ≤ i) from by omega, show (8 ≤ i) from by omega,
          show ¬(i - 16 < 8) from by omega, show ¬(i - 8 < 8) from by omega,
          show ¬(i < 8) from by omega, hhi]

theorem getD_append_offset (pre mid post : List Nat) (i : Nat) (hi : i < mid.length) :
    (pre ++ (mid ++ post)).getD (pre.length + i) 0 = mid.getD i 0 := by
  rw [List.getD_eq_getElem?_getD, List.getElem?_append_right (by omega),
    show pre.length + i - pre.length = i from by omega,
    List.getElem?_append_left hi, List.getD_eq_getElem?_getD]

theorem read_hash_at (pre h post : List Nat) (hlen : h.length = HASH_SIZE) :
    read_hash (pre ++ (h ++ post)) pre.length = some (h, pre.length + HASH_SIZE) := by
  rw [read_hash, if_neg (by simp only [List.length_append, gt_iff_lt, not_lt]; omega),
    List.drop_left, List.take_left' hlen]

theorem read_u24_at (pre post : List Nat) (n : Nat) (hn : n ≤ 0xffffff) :
    read_u24 (pre ++ ([(n >>> 16) &&& 0xff, (n >>> 8) &&& 0xff, n &&& 0xff] ++ post))
      pre.length = some (n, pre.length + 3) := by
  rw [read_u24, if_neg (by simp only [List.length_append, List.length_cons,
    List.length_nil, gt_iff_lt, not_lt]; omega)]
  have h0 := getD_append_offset pre
    ([(n >>> 16) &&& 0xff, (n >>> 8) &&& 0xff, n &&& 0xff]) post 0 (by simp)
  have h1 := getD_append_offset pre
    ([(n >>> 16) &&& 0xff, (n >>> 8) &&& 0xff, n &&& 0xff]) post 1 (by simp)
  have h2 := getD_append_offset pre
    ([(n >>> 16) &&& 0xff, (n >>> 8) &&& 0xff, n &&& 0xff]) post 2 (by simp)
  rw [Nat.add_zero] at h0
  rw [h0, h1, h2]
  simp only [List.getD_cons_zero, List.getD_cons_succ]
  rw [u24_assemble n hn]

theorem deserialize_at (pre b post : List Nat) (hne : b ≠ [])
    (hbits : ∀ x ∈ b, x ≤ 1) (hmach : b.length < 2 ^ 64) :
    deserialize_from_slice (pre ++ (serialize_into b [] ++ post)) pre.length true =
      some (b, pre.length + (serialize_into b []).length) := by
  have hser : serialize_into b [] =
      (if 1 ≤ b.length ∧ b.length ≤ 32 then [b.length - 1]
       else if 160 ≤ b.length ∧ b.length ≤ 382 then [b.length - 128]
       else 0xff :: varint_encode b.length) ++ sp_encode b := by
    rw [serialize_into, if_neg (by simpa using hne)]
    rfl
  have hlen1 : 1 ≤ b.length := by
    cases b with
    | nil => exact absurd rfl hne
    | cons a l => simp
  have hencl : calculate_encoded_length b.length = (sp_encode b).length :=
    (sp_encode_length b).symm
  rw [deserialize_from_slice]
  simp only [Bool.not_true, Bool.false_eq_true, if_false]
  have hread : read_path_bit_length (pre ++ (serialize_into b [] ++ post)) pre.length =
      some (b.length, pre.length +
        (serialize_into b []).length - (sp_encode b).length) := by
    rw [hser]
    by_cases hA : 1 ≤ b.length ∧ b.length ≤ 32
    · rw [if_pos hA]
      rw [List.append_assoc]
      rw [read_path_bit_length,
        if_neg (by simp only [not_le, List.length_append, List.length_cons,
          List.length_nil]; omega)]
      have h0 := getD_append_offset pre ([b.length - 1]) (sp_encode b ++ post) 0 (by simp)
      rw [Nat.add_zero] at h0
      rw [h0]
      simp only [List.getD_cons_zero]
      rw [if_pos (by omega)]
      simp only [List.length_append, List.length_cons, List.length_nil,
        Option.some.injEq, Prod.mk.injEq]
      constructor
      · omega
      · omega
    · rw [if_neg hA]
      by_cases hB : 160 ≤ b.length ∧ b.length ≤ 382
      · rw [if_pos hB]
        rw [List.append_assoc]
        rw [read_path_bit_length,
          if_neg (by simp only [not_le, List.length_append, List.length_cons,
            List.length_nil]; omega)]
        have h0 := getD_append_offset pre ([b.length - 128]) (sp_encode b ++ post) 0 (by simp)
        rw [Nat.add_zero] at h0
        rw [h0]
        simp only [List.getD_cons_zero]
        rw [if_neg (by omega), if_pos (by omega)]
        simp only [List.length_append, List.length_cons, List.length_nil,
          Option.some.injEq, Prod.mk.injEq]
        constructor
        · omega
        · omega
      · rw [if_neg hB]
        rw [List.append_assoc]
        rw [read_path_bit_length,
          if_neg (by simp only [not_le, List.length_append, List.length_cons]; omega)]
        have h0 := getD_append_offset pre (0xff :: varint_encode b.length)
          (sp_encode b ++ post) 0 (by simp)
        rw [Nat.add_zero] at h0
        rw [h0]
        simp only [List.getD_cons_zero]
        rw [if_neg (by omega), if_neg (by omega)]
        have hv := varint_round_trip (pre ++ [0xff]) (sp_encode b ++ post) b.length hmach
        rw [show (pre ++ [0xff]) ++ (varint_encode b.length ++ (sp_encode b ++ post)) =
          pre ++ ((0xff :: varint_encode b.length) ++ (sp_encode b ++ post)) by simp] at hv
        simp only [List.length_append, List.length_singleton] at hv
        rw [hv]
        simp only [List.length_cons, List.length_append, Option.some.injEq, Prod.mk.injEq]
        constructor
        · trivial
        · omega
  rw [hread]
  dsimp only
  rw [hencl]
  have hsple : (sp_encode b).length ≤ (serialize_into b []).length := by
    rw [hser]
    simp
  rw [if_neg (by
    simp only [List.length_append, gt_iff_lt, not_lt]
    omega)]
  have hslice : (((pre ++ (serialize_into b [] ++ post))).drop
      (pre.length + (serialize_into b []).length - (sp_encode b).length)).take
      (sp_encode b).length = sp_encode b := by
    conv in pre ++ (serialize_into b [] ++ post) => rw [hser]
    rw [show pre ++ (((if 1 ≤ b.length ∧ b.length ≤ 32 then [b.length - 1]
       else if 160 ≤ b.length ∧ b.length ≤ 382 then [b.length - 128]
       else 0xff :: varint_encode b.length) ++ sp_encode b) ++ post) =
      ((pre ++ (if 1 ≤ b.length ∧ b.length ≤ 32 then [b.length - 1]
       else if 160 ≤ b.length ∧ b.length ≤ 382 then [b.length - 128]
       else 0xff :: varint_encode b.length)) ++ (sp_encode b ++ post)) by simp]
    rw [show pre.length + (serialize_into b []).length - (sp_encode b).length =
      (pre ++ (if 1 ≤ b.length ∧ b.length ≤ 32 then [b.length - 1]
       else if 160 ≤ b.length ∧ b.length ≤ 382 then [b.length - 128]
       else 0xff :: varint_encode b.length)).length by
        rw [hser]
        simp only [List.length_append]
        omega]
    rw [List.drop_left, List.take_left]
  rw [hslice, sp_decode_encode b hbits]
  have hoff : pre.length + (serialize_into b []).length - (sp_encode b).length +
      (sp_encode b).length = pre.length + (serialize_into b []).length := by
    omega
  rw [hoff]

/-- The flags byte written by `encode_node`, as a function of its six
condition bits. -/
def flagsOf (lv spp lp rp lemb remb : Bool) : Nat :=
  VERSION_FLAG |||
    (if lv then LONG_VALUE_FLAG else 0) |||
    (if spp then SHARED_PREFIX_FLAG else 0) |||
    (if lp then LEFT_PRESENT_FLAG else 0) |||
    (if rp then RIGHT_PRESENT_FLAG else 0) |||
    (if lemb then LEFT_EMBEDDED_FLAG else 0) |||
    (if remb then RIGHT_EMBEDDED_FLAG else 0)

theorem flags_spec : ∀ lv spp lp rp lemb remb : Bool,
    decide (flagsOf lv spp lp rp lemb remb &&& LONG_VALUE_FLAG = LONG_VALUE_FLAG) = lv ∧
    decide (flagsOf lv spp lp rp lemb remb &&& SHARED_PREFIX_FLAG =
      SHARED_PREFIX_FLAG) = spp ∧
    decide (flagsOf lv spp lp rp lemb remb &&& LEFT_PRESENT_FLAG =
      LEFT_PRESENT_FLAG) = lp ∧
    decide (flagsOf lv spp lp rp lemb remb &&& RIGHT_PRESENT_FLAG =
      RIGHT_PRESENT_FLAG) = rp ∧
    decide (flagsOf lv spp lp rp lemb remb &&& LEFT_EMBEDDED_FLAG =
      LEFT_EMBEDDED_FLAG) = lemb ∧
    decide (flagsOf lv spp lp rp lemb remb &&& RIGHT_EMBEDDED_FLAG =
      RIGHT_EMBEDDED_FLAG) = remb ∧
    (flagsOf lv spp lp rp lemb remb == 2) = false := by
  decide

/-- The value reference as it reappears after a save/decode round trip: a
long inline value is replaced by its hash and length. -/
def reloadValue : ValueRef → ValueRef
  | .vinline w =>
    if LONG_VALUE_THRESHOLD < w.length then .vhashed (keccak256 w) (some w.length)
    else .vinline w
  | v => v

mutual
/-- The tree as it reappears after encode/decode: long values hashed,
non-embeddable children replaced by hashed references. -/
def reloadNode : TrieNode → TrieNode
  | .mk sp v l r => .mk sp (reloadValue v) (reloadRef l) (reloadRef r)
def reloadRef : NodeReference → NodeReference
  | .empty => .empty
  | .embedded c =>
    match compute_node_metadata c with
    | some md => if md.embeddable then .embedded (reloadNode c) else .hashed md.hash
    | none => .embedded (reloadNode c)
  | .hashed h => .hashed h
end

mutual
/-- Well-formedness of a materialized tree for the current codec: shared-path
bits are 0/1 of machine length, values are empty or inline non-empty of
bounded length, and children are empty or embedded. -/
def codecWFNode : TrieNode → Bool
  | .mk sp v l r =>
    sp.all (fun b => decide (b ≤ 1)) && decide (sp.length < 2 ^ 64) &&
    (match v with
     | .vempty => true
     | .vinline w => !w.isEmpty && decide (w.length ≤ 0xffffff)
     | .vhashed _ _ => false) &&
    codecWFRef l && codecWFRef r
def codecWFRef : NodeReference → Bool
  | .empty => true
  | .embedded n => codecWFNode n
  | .hashed _ => false
end

theorem serialize_into_eq (b out : List Nat) :
    serialize_into b out = out ++ serialize_into b [] := by
  rw [serialize_into, serialize_into]
  by_cases h : b.isEmpty
  · rw [if_pos h, if_pos h, List.append_nil]
  · rw [if_neg h, if_neg h]
    simp

theorem any_gt_one_false (sp : List Nat) (h : ∀ x ∈ sp, x ≤ 1) :
    (sp.any (fun bit => decide (1 < bit))) = false := by
  rw [List.any_eq_false]
  intro x hx
  simp only [decide_eq_true_eq, not_lt]
  exact h x hx

theorem decode_ref_at_hashed (f : Nat) (pre h post : List Nat)
    (hlen : h.length = HASH_SIZE) :
    decode_reference f (pre ++ (h ++ post)) pre.length false =
      some (.hashed h, pre.length + HASH_SIZE) := by
  rw [decode_reference]
  simp only [Bool.false_eq_true, if_false]
  rw [read_hash_at pre h post hlen]

theorem decode_ref_at_embedded (f : Nat) (pre bytes post : List Nat) (nc : TrieNode)
    (hle : bytes.length ≤ 255)
    (hdec : ∀ fuel, bytes.length < fuel → decode_node fuel bytes = some nc)
    (hf : bytes.length < f) :
    decode_reference f (pre ++ ((bytes.length :: bytes) ++ post)) pre.length true =
      some (.embedded nc, pre.length + 1 + bytes.length) := by
  rw [decode_reference]
  simp only [if_true]
  rw [if_neg (by simp only [not_le, List.length_append, List.length_cons]; omega)]
  have h0 := getD_append_offset pre (bytes.length :: bytes) post 0 (by simp)
  rw [Nat.add_zero] at h0
  rw [h0]
  simp only [List.getD_cons_zero]
  rw [if_neg (by simp only [gt_iff_lt, not_lt, List.length_append, List.length_cons]; omega)]
  have hslice : (((pre ++ ((bytes.length :: bytes) ++ post))).drop (pre.length + 1)).take
      bytes.length = bytes := by
    rw [show pre ++ ((bytes.length :: bytes) ++ post) =
      (pre ++ [bytes.length]) ++ (bytes ++ post) by simp]
    rw [show pre.length + 1 = (pre ++ [bytes.length]).length by simp]
    rw [List.drop_left, List.take_left]
  rw [hslice, hdec f hf]

theorem ite_decide_eq {α : Type} (c : Prop) [Decidable c] (b : Bool)
    (h : decide c = b) (X Y : α) :
    (if c then X else Y) = (if b = true then X else Y) := by
  subst h
  by_cases hc : c <;> simp [hc]

theorem encode_node_eq (node : TrieNode) (left right : ChildEncoding)
    (children_size : Option Nat) :
    encode_node node left right children_size =
      (if (left.is_present || right.is_present) && children_size.isNone then none
       else
         let flags := flagsOf node.has_long_value (!node.shared_path.isEmpty)
           left.is_present right.is_present left.is_embedded right.is_embedded
         let encoded := serialize_into node.shared_path [flags]
         match encode_reference left encoded with
         | none => none
         | some encoded =>
           match encode_reference right encoded with
           | none => none
           | some encoded =>
             let encoded := if left.is_present || right.is_present then
                 encoded ++ varint_encode (children_size.getD 0)
               else encoded
             if node.has_long_value then
               match node.value.hashV, node.value.lenV with
               | some hash, some length =>
                 match encode_u24 length with
                 | none => none
                 | some u24 => some (encoded ++ hash ++ u24)
               | _, _ => none
             else
               match node.value.inline_bytes with
               | some inl => some (encoded ++ inl)
               | none => some encoded) := rfl
